import Mathlib

/-!
# Verification of the kra reactive engine (src/kra.js)

This file shallowly embeds the core reactive dependency-tracking runtime of
the repository: signals (`createSignal`), memoized computeds (`createComputed`),
effects (`_makeEffect`), the active-tracker stack (`runWithTracker`/`untrack`),
synchronous batching (`batch`) and the owner-tree injection lookup (`want`).

Embedding choices:

* JavaScript values are modelled by the inductive `Value`.  `Object.is` is
  modelled by structural decidable equality `objectIs`; in particular
  `objectIs nan nan = true`, matching JavaScript's `Object.is(NaN, NaN)`.
  Zero-argument function values (used as effect cleanups, signal updaters and
  `want` fallback resolvers) are modelled by `Value.fnv r`: a constant function
  returning `r` when invoked.
* The bodies of computeds are expressions (`CExpr`) reading signals; the bodies
  of effects are expressions (`EExpr`) reading signals and computeds, pushing
  onto a log, nesting `untrack`, and possibly throwing.  Effect bodies perform
  no signal writes, and computed bodies read no computeds; the claims under
  verification only exercise such programs.  A consequence used throughout: a
  computed's subscriber set only ever contains effect trackers (only `EExpr`
  evaluation reads computeds, and it runs under an effect tracker or none), so
  a notification cascade has depth at most two (signal -> computed -> effect).
  `trigger` is therefore unrolled into the two levels `triggerTop` (signal
  subscribers) and `triggerLeaf` (computed subscribers); each level mirrors
  `trigger` in kra.js line by line.
* The mutable module state of kra.js (`activeTracker`, `trackerStack`,
  `batchDepth`, `pendingNotifications`, plus every cell) is an explicit
  `State`.  JS `Set` objects iterate in insertion order and are modelled as
  duplicate-free lists with `addUnique` / `List.filter` for add / delete.
* Exceptions are modelled with `Except Unit`; state is threaded even through
  a throw (the JS heap survives exceptions), so evaluators return
  `Except Unit α × State`.
* Instrumentation fields that do not influence control flow record what the
  claims count: `evalCount` (computed body invocations), `runCount` (effect
  body invocations), `cleanupCount` (cleanup invocations), `triggerLog`
  (every tracker handed to a `trigger` loop), `notifyLog` (every `_notify`
  entry), `log` (the user-visible log array used by the spec scenarios).
-/

namespace Kra

/-- A JavaScript value, as far as the claims need it.  `fnv r` models a
function value that returns `r` when invoked (with any arguments). -/
inductive Value where
  | undefV
  | nullv
  | nan
  | int (n : Int)
  | str (s : String)
  | boolv (b : Bool)
  | fnv (ret : Value)
deriving DecidableEq, Repr

/-- `Object.is` from kra.js line 189, modelled as structural equality: two
`nan`s are equal (JavaScript's deliberate NaN override), numbers and strings
compare by value. -/
def objectIs (a b : Value) : Bool := decide (a = b)

/-- JavaScript truthiness, used for `cond ? a : b` bodies. -/
def truthy : Value → Bool
  | .undefV => false
  | .nullv => false
  | .nan => false
  | .int n => decide (n ≠ 0)
  | .str s => decide (s ≠ "")
  | .boolv b => b
  | .fnv _ => true

/-- JavaScript `*` on the modelled values: integer multiplication, `NaN`
otherwise. -/
def mulV : Value → Value → Value
  | .int a, .int b => .int (a * b)
  | _, _ => .nan

/-- `typeof v === 'function'`. -/
def Value.isFunction : Value → Bool
  | .fnv _ => true
  | _ => false

/-- Identity of a tracker: the inner tracker of a computed, or an effect's
tracker. -/
inductive Tracker where
  | comp (i : Nat)
  | eff (i : Nat)
deriving DecidableEq, Repr

/-- A reference to a subscriber set (`_deps` entries point at the subscriber
sets the tracker is registered in): the set of a signal or of a computed. -/
inductive SetRef where
  | sig (i : Nat)
  | comp (i : Nat)
deriving DecidableEq, Repr

/-- Body of a computed: a pure expression over signal reads (the claims'
computeds read only signals). -/
inductive CExpr where
  | lit (v : Value)
  | readSig (i : Nat)
  | peekSig (i : Nat)
  | mul (a b : CExpr)
  | ite (c t e : CExpr)
deriving DecidableEq, Repr

/-- Body of an effect (or of code run under `untrack`): reads signals and
computeds, pushes values onto the log array, sequences, branches, nests
`untrack`, or throws. -/
inductive EExpr where
  | lit (v : Value)
  | readSig (i : Nat)
  | peekSig (i : Nat)
  | readComp (i : Nat)
  | push (e : EExpr)
  | seq (a b : EExpr)
  | ite (c t e : EExpr)
  | untrack (e : EExpr)
  | throwE
deriving DecidableEq, Repr

/-- A signal cell: `value` and its subscriber set (kra.js lines 178-197). -/
structure SignalCell where
  value : Value
  subs : List Tracker
deriving DecidableEq, Repr

/-- A computed cell (kra.js lines 203-238): body, cache, dirty flag, its own
subscriber set, and its inner tracker's `_deps`.  `evalCount` instruments how
often `computeFn` has been invoked. -/
structure ComputedCell where
  body : CExpr
  cachedValue : Value
  dirty : Bool
  subs : List Tracker
  deps : List SetRef
  evalCount : Nat
deriving DecidableEq, Repr

/-- An effect cell (kra.js lines 280-307): body, the stored cleanup return
value (`null` initially), the `active` flag and the tracker's `_deps`.
`runCount` instruments invocations of `effectFn`, `cleanupCount` invocations
of the stored cleanup callback. -/
structure EffectCell where
  body : EExpr
  cleanupFn : Value
  active : Bool
  deps : List SetRef
  runCount : Nat
  cleanupCount : Nat
deriving DecidableEq, Repr

/-- The whole mutable state of the kra.js module. -/
structure State where
  sigs : List SignalCell
  comps : List ComputedCell
  effs : List EffectCell
  activeTracker : Option Tracker
  trackerStack : List (Option Tracker)
  batchDepth : Nat
  pending : List Tracker
  log : List Value
  triggerLog : List Tracker
  notifyLog : List Tracker
deriving DecidableEq, Repr

/-- The initial module state. -/
def State.empty : State :=
  { sigs := [], comps := [], effs := [], activeTracker := none,
    trackerStack := [], batchDepth := 0, pending := [], log := [],
    triggerLog := [], notifyLog := [] }

/-- Apply `f` to the element at index `i` (identity when out of range). -/
def modIdx (f : α → α) : Nat → List α → List α
  | _, [] => []
  | 0, a :: as => f a :: as
  | i + 1, a :: as => a :: modIdx f i as

/-- JS `Set.add`: append if not already a member (insertion order). -/
def addUnique [DecidableEq α] (x : α) (xs : List α) : List α :=
  if x ∈ xs then xs else xs ++ [x]

/-- JS `Set.delete` on a duplicate-free list. -/
def removeElem [DecidableEq α] (x : α) (xs : List α) : List α :=
  xs.filter (fun y => y ≠ x)

def modSig (i : Nat) (f : SignalCell → SignalCell) (s : State) : State :=
  { s with sigs := modIdx f i s.sigs }

def modComp (i : Nat) (f : ComputedCell → ComputedCell) (s : State) : State :=
  { s with comps := modIdx f i s.comps }

def modEff (i : Nat) (f : EffectCell → EffectCell) (s : State) : State :=
  { s with effs := modIdx f i s.effs }

/-- The `_deps` set of a tracker. -/
def depsOfTracker (t : Tracker) (s : State) : List SetRef :=
  match t with
  | .comp i => ((s.comps[i]?).map (·.deps)).getD []
  | .eff i => ((s.effs[i]?).map (·.deps)).getD []

/-- `subscribers.add(activeTracker)` on the set referenced by `ref`. -/
def addSubAt (ref : SetRef) (t : Tracker) (s : State) : State :=
  match ref with
  | .sig j => modSig j (fun sg => { sg with subs := addUnique t sg.subs }) s
  | .comp j => modComp j (fun c => { c with subs := addUnique t c.subs }) s

/-- `activeTracker._deps.add(subscribers)`. -/
def addDep (t : Tracker) (ref : SetRef) (s : State) : State :=
  match t with
  | .comp i => modComp i (fun c => { c with deps := addUnique ref c.deps }) s
  | .eff i => modEff i (fun e => { e with deps := addUnique ref e.deps }) s

/-- `track(subscribers)` from kra.js lines 33-38, for the subscriber set
referenced by `ref`: when a tracker is active, register it in the set and
record the reverse edge. -/
def trackAt (ref : SetRef) (s : State) : State :=
  match s.activeTracker with
  | none => s
  | some t => addDep t ref (addSubAt ref t s)

/-- `depSet.delete(tracker)` on the set referenced by `ref`. -/
def removeFromSubs (ref : SetRef) (t : Tracker) (s : State) : State :=
  match ref with
  | .sig j => modSig j (fun sg => { sg with subs := removeElem t sg.subs }) s
  | .comp j => modComp j (fun c => { c with subs := removeElem t c.subs }) s

/-- `tracker._deps.clear()`. -/
def clearDeps (t : Tracker) (s : State) : State :=
  match t with
  | .comp i => modComp i (fun c => { c with deps := [] }) s
  | .eff i => modEff i (fun e => { e with deps := [] }) s

/-- `cleanupTracker(tracker)` from kra.js lines 51-56: remove the tracker from
every subscriber set in its `_deps`, then clear `_deps`. -/
def cleanupTracker (t : Tracker) (s : State) : State :=
  clearDeps t ((depsOfTracker t s).foldl (fun acc ref => removeFromSubs ref t acc) s)

/-- `activeTracker = trackerStack.pop()`. -/
def popTracker (s : State) : State :=
  match s.trackerStack with
  | [] => { s with activeTracker := none }
  | h :: rest => { s with activeTracker := h, trackerStack := rest }

/-- `trackerStack.push(activeTracker); activeTracker = t`. -/
def pushTracker (t : Option Tracker) (s : State) : State :=
  { s with trackerStack := s.activeTracker :: s.trackerStack, activeTracker := t }

/-- A signal read `sig()` (kra.js lines 183-186): track, then return the
current value. -/
def sigRead (i : Nat) (s : State) : Value × State :=
  match s.sigs[i]? with
  | none => (.undefV, s)
  | some sg => (sg.value, trackAt (.sig i) s)

/-- `sig.peek()`: the current value, no tracking. -/
def sigPeek (i : Nat) (s : State) : Value :=
  ((s.sigs[i]?).map (·.value)).getD .undefV

/-- Evaluation of a computed body.  Pure except for the dependency tracking
performed by the signal reads. -/
def evalC : CExpr → State → Value × State
  | .lit v, s => (v, s)
  | .readSig i, s => sigRead i s
  | .peekSig i, s => (sigPeek i s, s)
  | .mul a b, s =>
    let (va, s1) := evalC a s
    let (vb, s2) := evalC b s1
    (mulV va vb, s2)
  | .ite c t e, s =>
    let (vc, s1) := evalC c s
    if truthy vc then evalC t s1 else evalC e s1

/-- The shared dirty-validation block of `computed()` and `computed.peek()`
(kra.js lines 220-224 and 229-233): clean the inner tracker, re-evaluate the
body under the inner tracker (`evalCount` bumped as the body is entered),
cache the result and clear `dirty`. -/
def compEnsure (i : Nat) (b : CExpr) (s : State) : Value × State :=
  match evalC b (pushTracker (some (.comp i))
      (modComp i (fun c => { c with evalCount := c.evalCount + 1 })
        (cleanupTracker (.comp i) s))) with
  | (v, s5) => (v, modComp i (fun c => { c with cachedValue := v, dirty := false }) (popTracker s5))

/-- A computed read `computed()` (kra.js lines 218-226): track its own
subscriber set; if dirty, run the validation block.  (`trackAt` only touches
subscriber sets and `_deps`, so the `dirty`/`cachedValue`/`body` fields read
from the cell before tracking are the ones the source reads after it.) -/
def compRead (i : Nat) (s : State) : Value × State :=
  match s.comps[i]? with
  | none => (.undefV, s)
  | some cc =>
    if cc.dirty then compEnsure i cc.body (trackAt (.comp i) s)
    else (cc.cachedValue, trackAt (.comp i) s)

/-- `computed.peek()` (kra.js lines 228-235): same validity-ensuring step,
no tracking. -/
def compPeek (i : Nat) (s : State) : Value × State :=
  match s.comps[i]? with
  | none => (.undefV, s)
  | some cc =>
    if cc.dirty then compEnsure i cc.body s
    else (cc.cachedValue, s)

/-- Evaluation of an effect body / untracked code.  Mirrors the source: reads
track into the active tracker, `untrack` saves the active tracker on the
stack, sets it to `none`, and restores it in a `finally` (also on throw). -/
def evalE : EExpr → State → Except Unit Value × State
  | .lit v, s => (.ok v, s)
  | .readSig i, s =>
    let (v, s1) := sigRead i s
    (.ok v, s1)
  | .peekSig i, s => (.ok (sigPeek i s), s)
  | .readComp i, s =>
    let (v, s1) := compRead i s
    (.ok v, s1)
  | .push e, s =>
    match evalE e s with
    | (.ok v, s1) => (.ok (.int (s1.log.length + 1)), { s1 with log := s1.log ++ [v] })
    | r => r
  | .seq a b, s =>
    match evalE a s with
    | (.ok _, s1) => evalE b s1
    | r => r
  | .ite c t e, s =>
    match evalE c s with
    | (.ok vc, s1) => if truthy vc then evalE t s1 else evalE e s1
    | r => r
  | .untrack e, s =>
    match evalE e (pushTracker none s) with
    | (r, s2) => (r, popTracker s2)
  | .throwE, s => (.error (), s)

/-- `untrack(fn)` from kra.js lines 88-96. -/
def untrack (e : EExpr) (s : State) : Except Unit Value × State :=
  match evalE e (pushTracker none s) with
  | (r, s2) => (r, popTracker s2)

/-- `runWithTracker(tracker, fn)` from kra.js lines 58-66. -/
def runWithTracker (t : Tracker) (e : EExpr) (s : State) : Except Unit Value × State :=
  match evalE e (pushTracker (some t) s) with
  | (r, s2) => (r, popTracker s2)

/-- `if (typeof cleanupFn === 'function') { try { cleanupFn(); } catch ... }`:
invoking a stored cleanup callback is instrumented as a counter bump (the
`catch` swallows any error it might raise). -/
def invokeCleanup (i : Nat) (s : State) : State :=
  match s.effs[i]? with
  | none => s
  | some ec =>
    if ec.cleanupFn.isFunction then
      modEff i (fun e => { e with cleanupCount := e.cleanupCount + 1 }) s
    else s

/-- `execute()` of an effect (kra.js lines 288-294): run the old cleanup,
release stale edges, re-run the body under the effect's tracker, store the
returned value as the new cleanup.  A throwing body propagates (the stored
cleanup is then left unchanged, as the JS assignment never happens). -/
def effExecute (i : Nat) (s : State) : Except Unit Unit × State :=
  match s.effs[i]? with
  | none => (.ok (), s)
  | some ec =>
    match runWithTracker (.eff i) ec.body
        (modEff i (fun e => { e with runCount := e.runCount + 1 })
          (cleanupTracker (.eff i) (invokeCleanup i s))) with
    | (.ok v, s4) => (.ok (), modEff i (fun e => { e with cleanupFn := v }) s4)
    | (.error er, s4) => (.error er, s4)

/-- Record a `_notify()` entry (instrumentation). -/
def pushNotify (t : Tracker) (s : State) : State :=
  { s with notifyLog := s.notifyLog ++ [t] }

/-- An effect tracker's `_notify` (kra.js line 285): `if (active) execute()`. -/
def effNotify (i : Nat) (s : State) : Except Unit Unit × State :=
  match (pushNotify (.eff i) s).effs[i]? with
  | none => (.ok (), pushNotify (.eff i) s)
  | some ec =>
    if ec.active then effExecute i (pushNotify (.eff i) s)
    else (.ok (), pushNotify (.eff i) s)

/-- Record a tracker handed to a `trigger` loop (instrumentation). -/
def pushTrigger (t : Tracker) (s : State) : State :=
  { s with triggerLog := s.triggerLog ++ [t] }

/-- Set a computed's `dirty = true`. -/
def compMarkDirty (i : Nat) (s : State) : State :=
  modComp i (fun c => { c with dirty := true }) s

/-- `trigger` (kra.js lines 40-49) over a computed's subscriber snapshot: for
each tracker, defer into the pending set while a batch is active, otherwise
notify immediately.  Computed subscriber sets contain only effect trackers
(see the header); a computed tracker in this position is unreachable and left
un-notified. -/
def triggerLeaf : List Tracker → State → Except Unit Unit × State
  | [], s => (.ok (), s)
  | t :: ts, s =>
    if s.batchDepth > 0 then
      triggerLeaf ts (pushTrigger t { s with pending := addUnique t s.pending })
    else
      match t with
      | .eff i =>
        match effNotify i (pushTrigger t s) with
        | (.ok _, s1) => triggerLeaf ts s1
        | r => r
      | .comp _ => triggerLeaf ts (pushTrigger t s)

/-- A computed's inner `_notify` (kra.js lines 210-215): if clean, set dirty
and trigger the computed's own subscribers; if already dirty, do nothing. -/
def compNotify (i : Nat) (s : State) : Except Unit Unit × State :=
  match (pushNotify (.comp i) s).comps[i]? with
  | none => (.ok (), pushNotify (.comp i) s)
  | some cc =>
    if cc.dirty then (.ok (), pushNotify (.comp i) s)
    else triggerLeaf cc.subs (compMarkDirty i (pushNotify (.comp i) s))

/-- `tracker._notify()` dispatch. -/
def notifyTracker (t : Tracker) (s : State) : Except Unit Unit × State :=
  match t with
  | .comp i => compNotify i s
  | .eff i => effNotify i s

/-- `trigger` (kra.js lines 40-49) over a signal's subscriber snapshot. -/
def triggerTop : List Tracker → State → Except Unit Unit × State
  | [], s => (.ok (), s)
  | t :: ts, s =>
    if s.batchDepth > 0 then
      triggerTop ts (pushTrigger t { s with pending := addUnique t s.pending })
    else
      match notifyTracker t (pushTrigger t s) with
      | (.ok _, s1) => triggerTop ts s1
      | r => r

/-- The drain loop of `batch` (kra.js lines 79-83): `effect._notify()` on each
element of the snapshot. -/
def drain : List Tracker → State → Except Unit Unit × State
  | [], s => (.ok (), s)
  | t :: ts, s =>
    match notifyTracker t s with
    | (.ok _, s1) => drain ts s1
    | r => r

/-- Resolve the argument of a signal write (kra.js lines 187-188): a function
argument is invoked as an updater (our function values are constant). -/
def resolveNext (_cur arg : Value) : Value :=
  match arg with
  | .fnv r => r
  | v => v

/-- A signal write `sig(arg)` (kra.js lines 187-192): resolve the next value;
if it is `Object.is`-equal to the current value do nothing, otherwise store it
and trigger a snapshot of the subscribers. -/
def sigWrite (i : Nat) (arg : Value) (s : State) : Except Unit Unit × State :=
  match s.sigs[i]? with
  | none => (.ok (), s)
  | some sg =>
    if objectIs sg.value (resolveNext sg.value arg) then (.ok (), s)
    else triggerTop sg.subs
      (modSig i (fun c => { c with value := resolveNext sg.value arg }) s)

/-- `dispose()` of an effect (kra.js lines 296-303): idempotent via the
`active` guard; on the first call deactivate, run the final cleanup and
release all dependency edges. -/
def disposeEffect (i : Nat) (s : State) : State :=
  match s.effs[i]? with
  | none => s
  | some ec =>
    if ec.active then cleanupTracker (.eff i) (invokeCleanup i (modEff i (fun e => { e with active := false }) s))
    else s

/-- `createSignal(initialValue)` (kra.js lines 178-197): returns the id of the
fresh signal. -/
def createSignal (v : Value) (s : State) : Nat × State :=
  (s.sigs.length, { s with sigs := s.sigs ++ [{ value := v, subs := [] }] })

/-- `createComputed(computeFn)` (kra.js lines 203-238): `dirty` starts true,
nothing is evaluated at construction. -/
def createComputed (body : CExpr) (s : State) : Nat × State :=
  (s.comps.length,
   { s with comps := s.comps ++ [{ body := body, cachedValue := .undefV, dirty := true,
                                   subs := [], deps := [], evalCount := 0 }] })

/-- `_makeEffect(effectFn)` (kra.js lines 280-307): create the tracker and run
`execute()` once, synchronously. -/
def makeEffect (body : EExpr) (s : State) : Nat × (Except Unit Unit × State) :=
  let i := s.effs.length
  let s1 := { s with effs := s.effs ++ [{ body := body, cleanupFn := .nullv, active := true,
                                          deps := [], runCount := 0, cleanupCount := 0 }] }
  (i, effExecute i s1)

/-- Top-level statements: what client code between engine calls can do.
`run e` evaluates arbitrary untracked client code (reads, pushes, `untrack`,
throws); `writeSig` is a signal write, `batch` the scoping combinator from
kra.js lines 72-86, `dispose` an effect disposal. -/
inductive Prog where
  | skip
  | run (e : EExpr)
  | writeSig (i : Nat) (v : Value)
  | readSig (i : Nat)
  | readComp (i : Nat)
  | dispose (i : Nat)
  | seq (a b : Prog)
  | batch (p : Prog)
deriving Repr

/-- Run a top-level program.  The `batch` case mirrors kra.js lines 72-86:
increment the depth, run the body, then in a `finally` decrement the depth
and, at depth zero, snapshot and clear the pending set and notify each entry;
the body's result (or exception) is returned afterwards, unless the drain
itself throws. -/
def runProg : Prog → State → Except Unit Value × State
  | .skip, s => (.ok .undefV, s)
  | .run e, s => evalE e s
  | .writeSig i v, s =>
    let (r, s1) := sigWrite i v s
    (r.map (fun _ => .undefV), s1)
  | .readSig i, s =>
    let (v, s1) := sigRead i s
    (.ok v, s1)
  | .readComp i, s =>
    let (v, s1) := compRead i s
    (.ok v, s1)
  | .dispose i, s => (.ok .undefV, disposeEffect i s)
  | .seq a b, s =>
    match runProg a s with
    | (.ok _, s1) => runProg b s1
    | r => r
  | .batch p, s =>
    let s1 := { s with batchDepth := s.batchDepth + 1 }
    let (r, s2) := runProg p s1
    let s3 := { s2 with batchDepth := s2.batchDepth - 1 }
    if s3.batchDepth = 0 then
      let snap := s3.pending
      match drain snap { s3 with pending := [] } with
      | (.ok _, s4) => (r, s4)
      | (.error er, s4) => (.error er, s4)
    else (r, s3)

/-- An owner node (kra.js lines 404-430): its provided injection map (newest
entry first, `share` prepends) and the parent back-reference. -/
structure Owner where
  provided : List (String × Value)
  parent : Option Nat
deriving DecidableEq, Repr

/-- `key in owner._provided` / `owner._provided[key]`. -/
def lookupProvided : List (String × Value) → String → Option Value
  | [], _ => none
  | (k, v) :: rest, key => if k = key then some v else lookupProvided rest key

/-- `share(key, value)` (kra.js lines 127-135): a warn-and-no-op outside any
owner, otherwise store under the key in the current owner. -/
def share (owners : List Owner) (currentOwner : Option Nat) (key : String) (v : Value) :
    List Owner :=
  match currentOwner with
  | none => owners
  | some i => modIdx (fun o => { o with provided := (key, v) :: o.provided }) i owners

/-- Invoke a value as a zero-argument function (`fallback()`): function values
return their payload, anything else raises a `TypeError`. -/
def callFallback (fb : Value) : Except Unit Value :=
  match fb with
  | .fnv r => .ok r
  | _ => .error ()

/-- The parent-chain walk of `want` (kra.js lines 162-168), fuelled by the
owner count (parent chains of well-formed owner trees are acyclic). -/
def wantChain (owners : List Owner) : Nat → Option Nat → String → Value → Except Unit Value
  | _, none, _, fb => callFallback fb
  | 0, some _, _, fb => callFallback fb
  | fuel + 1, some i, key, fb =>
    match owners[i]? with
    | none => callFallback fb
    | some o =>
      match lookupProvided o.provided key with
      | some v => .ok v
      | none => wantChain owners fuel o.parent key fb

/-- `want(key, fallback)` (kra.js lines 154-172).  Note that both the
no-current-owner path (line 158) and the exhausted-chain path (line 171)
evaluate `fallback()` — they invoke the fallback as a function
unconditionally. -/
def want (owners : List Owner) (currentOwner : Option Nat) (key : String) (fb : Value) :
    Except Unit Value :=
  match currentOwner with
  | none => callFallback fb
  | some i =>
    match owners[i]? with
    | none => callFallback fb
    | some o => wantChain owners owners.length o.parent key fb

end Kra

namespace Kra

/-! ## Helper lemmas about `modIdx` and `addUnique` -/

theorem modIdx_length (f : α → α) (i : Nat) (xs : List α) :
    (modIdx f i xs).length = xs.length := by
  induction xs generalizing i with
  | nil => cases i <;> rfl
  | cons a as ih =>
    cases i with
    | zero => rfl
    | succ j => simpa [modIdx] using ih j

theorem getElem?_modIdx_self (f : α → α) (i : Nat) (xs : List α) :
    (modIdx f i xs)[i]? = (xs[i]?).map f := by
  induction xs generalizing i with
  | nil => simp [modIdx]
  | cons a as ih =>
    cases i with
    | zero => simp [modIdx]
    | succ j => simpa [modIdx] using ih j

theorem getElem?_modIdx_ne (f : α → α) (i j : Nat) (xs : List α) (h : j ≠ i) :
    (modIdx f i xs)[j]? = xs[j]? := by
  induction xs generalizing i j with
  | nil => simp [modIdx]
  | cons a as ih =>
    cases i with
    | zero =>
      cases j with
      | zero => exact absurd rfl h
      | succ k => simp [modIdx]
    | succ i' =>
      cases j with
      | zero => simp [modIdx]
      | succ k => simpa [modIdx] using ih i' k (fun hk => h (by omega))

theorem mem_addUnique [DecidableEq α] (x y : α) (xs : List α) :
    y ∈ addUnique x xs ↔ y ∈ xs ∨ y = x := by
  unfold addUnique
  by_cases h : x ∈ xs
  · simp only [if_pos h]
    constructor
    · exact fun hy => Or.inl hy
    · rintro (hy | rfl) <;> [exact hy; exact h]
  · simp [if_neg h]

theorem nodup_addUnique [DecidableEq α] (x : α) (xs : List α) (h : xs.Nodup) :
    (addUnique x xs).Nodup := by
  unfold addUnique
  by_cases hx : x ∈ xs
  · simpa [if_pos hx]
  · simp only [if_neg hx]
    refine List.Nodup.append h (List.nodup_singleton x) ?_
    intro a ha hax
    rw [List.mem_singleton] at hax
    exact hx (hax ▸ ha)

/-- `foldl` of set-insertions, as the batch scheduler accumulates `pending`. -/
def accumUnique [DecidableEq α] (xs : List α) (acc : List α) : List α :=
  xs.foldl (fun acc t => addUnique t acc) acc

theorem accumUnique_nil [DecidableEq α] (acc : List α) : accumUnique [] acc = acc := rfl

theorem accumUnique_cons [DecidableEq α] (x : α) (xs acc : List α) :
    accumUnique (x :: xs) acc = accumUnique xs (addUnique x acc) := rfl

theorem accumUnique_append [DecidableEq α] (xs ys acc : List α) :
    accumUnique (xs ++ ys) acc = accumUnique ys (accumUnique xs acc) := by
  simp [accumUnique, List.foldl_append]

theorem mem_accumUnique [DecidableEq α] (xs acc : List α) (y : α) :
    y ∈ accumUnique xs acc ↔ y ∈ acc ∨ y ∈ xs := by
  induction xs generalizing acc with
  | nil => simp [accumUnique]
  | cons x xs ih =>
    rw [accumUnique_cons, ih, mem_addUnique]
    simp only [List.mem_cons]
    tauto

theorem nodup_accumUnique [DecidableEq α] (xs acc : List α) (h : acc.Nodup) :
    (accumUnique xs acc).Nodup := by
  induction xs generalizing acc with
  | nil => simpa [accumUnique]
  | cons x xs ih => exact accumUnique_cons x xs acc ▸ ih _ (nodup_addUnique x acc h)

/-! ## The `Quiet` frame: operations that never touch the scheduler state

`Quiet s s'` says batch depth, the pending set and both trigger/notify
instrumentation logs are unchanged.  Every evaluation-level operation
(tracking, cleanup, body evaluation, reads, disposal) is quiet; only the
`trigger` loops and `_notify` implementations are not. -/

def Quiet (s s' : State) : Prop :=
  s'.batchDepth = s.batchDepth ∧ s'.pending = s.pending ∧
  s'.triggerLog = s.triggerLog ∧ s'.notifyLog = s.notifyLog

theorem Quiet.qrefl (s : State) : Quiet s s := ⟨rfl, rfl, rfl, rfl⟩

theorem Quiet.qtrans {s1 s2 s3 : State} (h1 : Quiet s1 s2) (h2 : Quiet s2 s3) :
    Quiet s1 s3 :=
  ⟨h2.1.trans h1.1, h2.2.1.trans h1.2.1, h2.2.2.1.trans h1.2.2.1, h2.2.2.2.trans h1.2.2.2⟩

theorem quiet_modSig (i : Nat) (f : SignalCell → SignalCell) (s : State) :
    Quiet s (modSig i f s) := ⟨rfl, rfl, rfl, rfl⟩

theorem quiet_modComp (i : Nat) (f : ComputedCell → ComputedCell) (s : State) :
    Quiet s (modComp i f s) := ⟨rfl, rfl, rfl, rfl⟩

theorem quiet_modEff (i : Nat) (f : EffectCell → EffectCell) (s : State) :
    Quiet s (modEff i f s) := ⟨rfl, rfl, rfl, rfl⟩

theorem quiet_addSubAt (ref : SetRef) (t : Tracker) (s : State) :
    Quiet s (addSubAt ref t s) := by
  cases ref <;> exact ⟨rfl, rfl, rfl, rfl⟩

theorem quiet_addDep (t : Tracker) (ref : SetRef) (s : State) :
    Quiet s (addDep t ref s) := by
  cases t <;> exact ⟨rfl, rfl, rfl, rfl⟩

theorem quiet_trackAt (ref : SetRef) (s : State) : Quiet s (trackAt ref s) := by
  unfold trackAt
  cases s.activeTracker with
  | none => exact Quiet.qrefl s
  | some t => exact (quiet_addSubAt ref t s).qtrans (quiet_addDep t ref _)

theorem quiet_removeFromSubs (ref : SetRef) (t : Tracker) (s : State) :
    Quiet s (removeFromSubs ref t s) := by
  cases ref <;> exact ⟨rfl, rfl, rfl, rfl⟩

theorem quiet_clearDeps (t : Tracker) (s : State) : Quiet s (clearDeps t s) := by
  cases t <;> exact ⟨rfl, rfl, rfl, rfl⟩

theorem quiet_foldl_removeFromSubs (t : Tracker) (refs : List SetRef) (s : State) :
    Quiet s (refs.foldl (fun acc ref => removeFromSubs ref t acc) s) := by
  induction refs generalizing s with
  | nil => exact Quiet.qrefl s
  | cons r rs ih => exact (quiet_removeFromSubs r t s).qtrans (ih _)

theorem quiet_cleanupTracker (t : Tracker) (s : State) : Quiet s (cleanupTracker t s) :=
  (quiet_foldl_removeFromSubs t _ s).qtrans (quiet_clearDeps t _)

theorem quiet_popTracker (s : State) : Quiet s (popTracker s) := by
  unfold popTracker
  cases s.trackerStack <;> exact ⟨rfl, rfl, rfl, rfl⟩

theorem quiet_pushTracker (t : Option Tracker) (s : State) : Quiet s (pushTracker t s) :=
  ⟨rfl, rfl, rfl, rfl⟩

theorem quiet_sigRead (i : Nat) (s : State) : Quiet s (sigRead i s).2 := by
  unfold sigRead
  cases s.sigs[i]? with
  | none => exact Quiet.qrefl s
  | some sg => exact quiet_trackAt _ _

theorem quiet_evalC (e : CExpr) (s : State) : Quiet s (evalC e s).2 := by
  induction e generalizing s with
  | lit v => exact Quiet.qrefl s
  | readSig i => exact quiet_sigRead i s
  | peekSig i => exact Quiet.qrefl s
  | mul a b iha ihb =>
    simp only [evalC]
    exact (iha s).qtrans (ihb _)
  | ite c t e ihc iht ihe =>
    simp only [evalC]
    by_cases h : truthy (evalC c s).1
    · simpa [h] using (ihc s).qtrans (iht _)
    · simpa [h] using (ihc s).qtrans (ihe _)

theorem quiet_compEnsure (i : Nat) (b : CExpr) (s : State) :
    Quiet s (compEnsure i b s).2 := by
  unfold compEnsure
  rcases hv : evalC b (pushTracker (some (.comp i))
      (modComp i (fun c => { c with evalCount := c.evalCount + 1 })
        (cleanupTracker (.comp i) s))) with ⟨v, s5⟩
  have h5 : Quiet s s5 := by
    have := quiet_evalC b (pushTracker (some (.comp i))
      (modComp i (fun c => { c with evalCount := c.evalCount + 1 })
        (cleanupTracker (.comp i) s)))
    rw [hv] at this
    exact (((quiet_cleanupTracker _ s).qtrans (quiet_modComp _ _ _)).qtrans
      (quiet_pushTracker _ _)).qtrans this
  exact (h5.qtrans (quiet_popTracker _)).qtrans (quiet_modComp _ _ _)

theorem quiet_compRead (i : Nat) (s : State) : Quiet s (compRead i s).2 := by
  unfold compRead
  cases s.comps[i]? with
  | none => exact Quiet.qrefl s
  | some cc =>
    by_cases h : cc.dirty
    · simp only [h, if_true]
      exact (quiet_trackAt _ s).qtrans (quiet_compEnsure _ _ _)
    · simp only [h, if_false]
      exact quiet_trackAt _ s

theorem quiet_compPeek (i : Nat) (s : State) : Quiet s (compPeek i s).2 := by
  unfold compPeek
  cases s.comps[i]? with
  | none => exact Quiet.qrefl s
  | some cc =>
    by_cases h : cc.dirty
    · simp only [h, if_true]
      exact quiet_compEnsure _ _ _
    · simp only [h, if_false]
      exact Quiet.qrefl s

theorem quiet_evalE (e : EExpr) (s : State) : Quiet s (evalE e s).2 := by
  induction e generalizing s with
  | lit v => exact Quiet.qrefl s
  | readSig i => exact quiet_sigRead i s
  | peekSig i => exact Quiet.qrefl s
  | readComp i => exact quiet_compRead i s
  | push e ih =>
    simp only [evalE]
    rcases h : evalE e s with ⟨r, s1⟩
    cases r with
    | ok v =>
      have := ih s
      rw [h] at this
      exact this.qtrans ⟨rfl, rfl, rfl, rfl⟩
    | error er =>
      have := ih s
      rw [h] at this
      exact this
  | seq a b iha ihb =>
    simp only [evalE]
    rcases h : evalE a s with ⟨r, s1⟩
    have ha := iha s
    rw [h] at ha
    cases r with
    | ok v => exact ha.qtrans (ihb s1)
    | error er => exact ha
  | ite c t e ihc iht ihe =>
    simp only [evalE]
    rcases h : evalE c s with ⟨r, s1⟩
    have hc := ihc s
    rw [h] at hc
    cases r with
    | ok v =>
      by_cases hv : truthy v
      · simpa [hv] using hc.qtrans (iht s1)
      · simpa [hv] using hc.qtrans (ihe s1)
    | error er => exact hc
  | untrack e ih =>
    simp only [evalE]
    rcases hv : evalE e (pushTracker none s) with ⟨r, s2⟩
    have h2 := ih (pushTracker none s)
    rw [hv] at h2
    exact (((quiet_pushTracker none s).qtrans h2).qtrans (quiet_popTracker _))
  | throwE => exact Quiet.qrefl s

theorem quiet_untrack (e : EExpr) (s : State) : Quiet s (untrack e s).2 := by
  unfold untrack
  rcases hv : evalE e (pushTracker none s) with ⟨r, s2⟩
  have h2 := quiet_evalE e (pushTracker none s)
  rw [hv] at h2
  exact (((quiet_pushTracker none s).qtrans h2).qtrans (quiet_popTracker _))

theorem quiet_runWithTracker (t : Tracker) (e : EExpr) (s : State) :
    Quiet s (runWithTracker t e s).2 := by
  unfold runWithTracker
  rcases hv : evalE e (pushTracker (some t) s) with ⟨r, s2⟩
  have h2 := quiet_evalE e (pushTracker (some t) s)
  rw [hv] at h2
  exact (((quiet_pushTracker (some t) s).qtrans h2).qtrans (quiet_popTracker _))

theorem quiet_invokeCleanup (i : Nat) (s : State) : Quiet s (invokeCleanup i s) := by
  unfold invokeCleanup
  cases s.effs[i]? with
  | none => exact Quiet.qrefl s
  | some ec =>
    by_cases h : ec.cleanupFn.isFunction
    · simp only [h, if_true]
      exact quiet_modEff _ _ _
    · simp only [h, if_false]
      exact Quiet.qrefl s

theorem quiet_effExecute (i : Nat) (s : State) : Quiet s (effExecute i s).2 := by
  unfold effExecute
  cases s.effs[i]? with
  | none => exact Quiet.qrefl s
  | some ec =>
    rcases h : runWithTracker (.eff i) ec.body
        (modEff i (fun e => { e with runCount := e.runCount + 1 })
          (cleanupTracker (.eff i) (invokeCleanup i s))) with ⟨r, s4⟩
    have hq : Quiet s s4 := by
      have := quiet_runWithTracker (.eff i) ec.body
        (modEff i (fun e => { e with runCount := e.runCount + 1 })
          (cleanupTracker (.eff i) (invokeCleanup i s)))
      rw [h] at this
      exact (((quiet_invokeCleanup i s).qtrans (quiet_cleanupTracker _ _)).qtrans
        (quiet_modEff _ _ _)).qtrans this
    dsimp only
    rw [h]
    cases r with
    | ok v => exact hq.qtrans (quiet_modEff _ _ _)
    | error er => exact hq

theorem quiet_disposeEffect (i : Nat) (s : State) : Quiet s (disposeEffect i s) := by
  unfold disposeEffect
  cases s.effs[i]? with
  | none => exact Quiet.qrefl s
  | some ec =>
    by_cases h : ec.active
    · simp only [h, if_true]
      exact ((quiet_modEff _ _ _).qtrans (quiet_invokeCleanup _ _)).qtrans
        (quiet_cleanupTracker _ _)
    · simp only [h, if_false]
      exact Quiet.qrefl s

end Kra

namespace Kra

/-! ## Behaviour of the trigger loops while a batch is active

While `batchDepth > 0`, a trigger loop never notifies: it records each
triggered tracker and inserts it into the pending set (deduplicated). -/

theorem triggerLeaf_batched (ts : List Tracker) (s : State) (h : 0 < s.batchDepth) :
    triggerLeaf ts s =
      (.ok (), { s with pending := accumUnique ts s.pending,
                        triggerLog := s.triggerLog ++ ts }) := by
  induction ts generalizing s with
  | nil => simp [triggerLeaf, accumUnique]
  | cons t ts ih =>
    simp only [triggerLeaf]
    rw [if_pos (show s.batchDepth > 0 from h)]
    rw [ih _ (by simpa [pushTrigger] using h)]
    simp [pushTrigger, accumUnique_cons]

theorem triggerTop_batched (ts : List Tracker) (s : State) (h : 0 < s.batchDepth) :
    triggerTop ts s =
      (.ok (), { s with pending := accumUnique ts s.pending,
                        triggerLog := s.triggerLog ++ ts }) := by
  induction ts generalizing s with
  | nil => simp [triggerTop, accumUnique]
  | cons t ts ih =>
    simp only [triggerTop]
    rw [if_pos (show s.batchDepth > 0 from h)]
    rw [ih _ (by simpa [pushTrigger] using h)]
    simp [pushTrigger, accumUnique_cons]

/-- What any top-level code does to the scheduler state while a batch is
active: the depth and notify log are untouched (nothing is notified), and the
pending set accumulates exactly the trackers handed to triggers, deduplicated
in trigger order. -/
def BatchedOK (s s' : State) : Prop :=
  s'.batchDepth = s.batchDepth ∧ s'.notifyLog = s.notifyLog ∧
  ∃ newT, s'.triggerLog = s.triggerLog ++ newT ∧
    s'.pending = accumUnique newT s.pending

theorem BatchedOK.brefl (s : State) : BatchedOK s s := ⟨rfl, rfl, [], by simp, rfl⟩

theorem BatchedOK.btrans {s1 s2 s3 : State} (h1 : BatchedOK s1 s2) (h2 : BatchedOK s2 s3) :
    BatchedOK s1 s3 := by
  obtain ⟨hd1, hn1, t1, hl1, hp1⟩ := h1
  obtain ⟨hd2, hn2, t2, hl2, hp2⟩ := h2
  refine ⟨hd2.trans hd1, hn2.trans hn1, t1 ++ t2, ?_, ?_⟩
  · rw [hl2, hl1, List.append_assoc]
  · rw [hp2, hp1, accumUnique_append]

theorem BatchedOK.of_quiet {s s' : State} (h : Quiet s s') : BatchedOK s s' :=
  ⟨h.1, h.2.2.2, [], by simp [h.2.2.1], by simp [accumUnique, h.2.1]⟩

theorem sigWrite_batched (i : Nat) (v : Value) (s : State) (h : 0 < s.batchDepth) :
    (sigWrite i v s).1 = .ok () ∧ BatchedOK s (sigWrite i v s).2 := by
  unfold sigWrite
  cases hs : s.sigs[i]? with
  | none => exact ⟨rfl, BatchedOK.brefl s⟩
  | some sg =>
    dsimp only
    by_cases he : objectIs sg.value (resolveNext sg.value v) = true
    · rw [if_pos he]
      exact ⟨rfl, BatchedOK.brefl s⟩
    · rw [if_neg he]
      rw [triggerTop_batched _ _ (show 0 < (modSig i (fun c => { c with value := resolveNext sg.value v }) s).batchDepth from h)]
      exact ⟨rfl, rfl, rfl, sg.subs, rfl, rfl⟩

/-- Running any top-level program with a batch active performs no
notification and only accumulates deduplicated pending trackers. -/
theorem runProg_batched (p : Prog) (s : State) (h : 0 < s.batchDepth) :
    BatchedOK s (runProg p s).2 := by
  induction p generalizing s with
  | skip => exact BatchedOK.brefl s
  | run e => exact BatchedOK.of_quiet (quiet_evalE e s)
  | writeSig i v =>
    have hw := (sigWrite_batched i v s h).2
    simp only [runProg]
    rcases hr : sigWrite i v s with ⟨r, s1⟩
    rw [hr] at hw
    exact hw
  | readSig i => exact BatchedOK.of_quiet (quiet_sigRead i s)
  | readComp i => exact BatchedOK.of_quiet (quiet_compRead i s)
  | dispose i => exact BatchedOK.of_quiet (quiet_disposeEffect i s)
  | seq a b iha ihb =>
    simp only [runProg]
    rcases hr : runProg a s with ⟨r, s1⟩
    have ha := iha s h
    rw [hr] at ha
    cases r with
    | ok v =>
      have hb := ihb s1 (by rw [ha.1]; exact h)
      exact ha.btrans hb
    | error er => exact ha
  | batch p ih =>
    simp only [runProg]
    have h1 : 0 < ({ s with batchDepth := s.batchDepth + 1 } : State).batchDepth := by
      simp
    have hp := ih { s with batchDepth := s.batchDepth + 1 } h1
    rcases hr : runProg p { s with batchDepth := s.batchDepth + 1 } with ⟨r, s2⟩
    rw [hr] at hp
    dsimp only
    have hd2 : s2.batchDepth = s.batchDepth + 1 := hp.1
    have hne : ¬(s2.batchDepth - 1 = 0) := by omega
    rw [if_neg hne]
    obtain ⟨-, hn, newT, hl, hpd⟩ := hp
    exact ⟨by simpa using congrArg (· - 1) hd2, hn, newT, hl, hpd⟩

/-- The `batch` construct run with a batch already active: the depth is
restored, nothing is drained, the body's result and the accumulated pending
set pass through unchanged. -/
theorem runProg_batch_inner (p : Prog) (s : State) (h : 1 ≤ s.batchDepth) :
    runProg (.batch p) s =
      ((runProg p { s with batchDepth := s.batchDepth + 1 }).1,
       { (runProg p { s with batchDepth := s.batchDepth + 1 }).2 with
           batchDepth := (runProg p { s with batchDepth := s.batchDepth + 1 }).2.batchDepth - 1 }) := by
  simp only [runProg]
  have h1 : 0 < ({ s with batchDepth := s.batchDepth + 1 } : State).batchDepth := by simp
  have hp := runProg_batched p { s with batchDepth := s.batchDepth + 1 } h1
  rcases hr : runProg p { s with batchDepth := s.batchDepth + 1 } with ⟨r, s2⟩
  rw [hr] at hp
  dsimp only
  have hd2 : s2.batchDepth = s.batchDepth + 1 := hp.1
  have hne : ¬(s2.batchDepth - 1 = 0) := by omega
  rw [if_neg hne]

end Kra

namespace Kra

/-! ## Signal values are only changed by `sigWrite`

No tracking, cleanup, body evaluation or notification mutates any signal's
`value`; only the write path does.  This is stated on the list of values. -/

theorem map_modIdx (g : α → β) (f : α → α) (h : ∀ a, g (f a) = g a) (i : Nat) (xs : List α) :
    (modIdx f i xs).map g = xs.map g := by
  induction xs generalizing i with
  | nil => cases i <;> rfl
  | cons a as ih =>
    cases i with
    | zero => simp [modIdx, h a]
    | succ j => simp [modIdx, ih j]

/-- The list of all signal values. -/
def sigValues (s : State) : List Value := s.sigs.map (·.value)

theorem sigValues_modSig (j : Nat) (f : SignalCell → SignalCell)
    (hf : ∀ a, (f a).value = a.value) (s : State) :
    sigValues (modSig j f s) = sigValues s := by
  simp only [sigValues, modSig]
  exact map_modIdx _ f hf j s.sigs

theorem sigValues_trackAt (ref : SetRef) (s : State) :
    sigValues (trackAt ref s) = sigValues s := by
  unfold trackAt
  cases s.activeTracker with
  | none => rfl
  | some t =>
    have h1 : sigValues (addSubAt ref t s) = sigValues s := by
      cases ref with
      | sig j =>
        exact sigValues_modSig j (fun sg => { sg with subs := addUnique t sg.subs })
          (fun a => rfl) s
      | comp j => rfl
    have h2 : ∀ s', sigValues (addDep t ref s') = sigValues s' := by
      intro s'
      cases t with
      | comp i => rfl
      | eff i => rfl
    rw [h2, h1]

theorem sigValues_removeFromSubs (ref : SetRef) (t : Tracker) (s : State) :
    sigValues (removeFromSubs ref t s) = sigValues s := by
  cases ref with
  | sig j =>
    exact sigValues_modSig j (fun sg => { sg with subs := removeElem t sg.subs })
      (fun a => rfl) s
  | comp j => rfl

theorem sigValues_clearDeps (t : Tracker) (s : State) :
    sigValues (clearDeps t s) = sigValues s := by
  cases t <;> rfl

theorem sigValues_cleanupTracker (t : Tracker) (s : State) :
    sigValues (cleanupTracker t s) = sigValues s := by
  unfold cleanupTracker
  rw [sigValues_clearDeps]
  generalize depsOfTracker t s = refs
  induction refs generalizing s with
  | nil => rfl
  | cons r rs ih => rw [List.foldl_cons, ih, sigValues_removeFromSubs]

theorem sigValues_popTracker (s : State) : sigValues (popTracker s) = sigValues s := by
  unfold popTracker
  cases s.trackerStack <;> rfl

theorem sigValues_sigRead (i : Nat) (s : State) : sigValues (sigRead i s).2 = sigValues s := by
  unfold sigRead
  cases s.sigs[i]? with
  | none => rfl
  | some sg => exact sigValues_trackAt _ _

theorem sigValues_evalC (e : CExpr) (s : State) : sigValues (evalC e s).2 = sigValues s := by
  induction e generalizing s with
  | lit v => rfl
  | readSig i => exact sigValues_sigRead i s
  | peekSig i => rfl
  | mul a b iha ihb =>
    simp only [evalC]
    rcases ha : evalC a s with ⟨va, s1⟩
    rcases hb : evalC b s1 with ⟨vb, s2⟩
    have h1 := iha s
    have h2 := ihb s1
    rw [ha] at h1
    rw [hb] at h2
    dsimp only
    rw [h2, h1]
  | ite c t e ihc iht ihe =>
    simp only [evalC]
    rcases hc : evalC c s with ⟨vc, s1⟩
    have h1 := ihc s
    rw [hc] at h1
    dsimp only
    by_cases hv : truthy vc = true
    · rw [if_pos hv, iht, h1]
    · rw [if_neg hv, ihe, h1]

theorem sigValues_compEnsure (i : Nat) (b : CExpr) (s : State) :
    sigValues (compEnsure i b s).2 = sigValues s := by
  unfold compEnsure
  rcases hv : evalC b (pushTracker (some (.comp i))
      (modComp i (fun c => { c with evalCount := c.evalCount + 1 })
        (cleanupTracker (.comp i) s))) with ⟨v, s5⟩
  have h5 := sigValues_evalC b (pushTracker (some (.comp i))
      (modComp i (fun c => { c with evalCount := c.evalCount + 1 })
        (cleanupTracker (.comp i) s)))
  rw [hv] at h5
  dsimp only
  show sigValues (popTracker s5) = sigValues s
  rw [sigValues_popTracker, h5]
  show sigValues (cleanupTracker (.comp i) s) = sigValues s
  rw [sigValues_cleanupTracker]

theorem sigValues_compRead (i : Nat) (s : State) :
    sigValues (compRead i s).2 = sigValues s := by
  unfold compRead
  cases s.comps[i]? with
  | none => rfl
  | some cc =>
    by_cases h : cc.dirty
    · simp only [h, if_true]
      rw [sigValues_compEnsure, sigValues_trackAt]
    · simp only [h, if_false]
      exact sigValues_trackAt _ _

theorem sigValues_evalE (e : EExpr) (s : State) : sigValues (evalE e s).2 = sigValues s := by
  induction e generalizing s with
  | lit v => rfl
  | readSig i => exact sigValues_sigRead i s
  | peekSig i => rfl
  | readComp i => exact sigValues_compRead i s
  | push e ih =>
    simp only [evalE]
    rcases h : evalE e s with ⟨r, s1⟩
    have this1 := ih s
    rw [h] at this1
    cases r with
    | ok v => exact this1
    | error er => exact this1
  | seq a b iha ihb =>
    simp only [evalE]
    rcases h : evalE a s with ⟨r, s1⟩
    have ha := iha s
    rw [h] at ha
    cases r with
    | ok v => rw [ihb, ha]
    | error er => exact ha
  | ite c t e ihc iht ihe =>
    simp only [evalE]
    rcases h : evalE c s with ⟨r, s1⟩
    have hc := ihc s
    rw [h] at hc
    cases r with
    | ok v =>
      dsimp only
      by_cases hv : truthy v = true
      · rw [if_pos hv, iht, hc]
      · rw [if_neg hv, ihe, hc]
    | error er => exact hc
  | untrack e ih =>
    simp only [evalE]
    rcases h : evalE e (pushTracker none s) with ⟨r, s2⟩
    have this1 := ih (pushTracker none s)
    rw [h] at this1
    dsimp only
    rw [sigValues_popTracker, this1]
    rfl
  | throwE => rfl

theorem sigValues_runWithTracker (t : Tracker) (e : EExpr) (s : State) :
    sigValues (runWithTracker t e s).2 = sigValues s := by
  unfold runWithTracker
  rcases h : evalE e (pushTracker (some t) s) with ⟨r, s2⟩
  have this1 := sigValues_evalE e (pushTracker (some t) s)
  rw [h] at this1
  dsimp only
  rw [sigValues_popTracker, this1]
  rfl

theorem sigValues_invokeCleanup (i : Nat) (s : State) :
    sigValues (invokeCleanup i s) = sigValues s := by
  unfold invokeCleanup
  cases s.effs[i]? with
  | none => rfl
  | some ec =>
    by_cases h : ec.cleanupFn.isFunction
    · simp only [h, if_true]
      rfl
    · simp only [h, if_false]
      rfl

theorem sigValues_effExecute (i : Nat) (s : State) :
    sigValues (effExecute i s).2 = sigValues s := by
  unfold effExecute
  cases s.effs[i]? with
  | none => rfl
  | some ec =>
    rcases hr : runWithTracker (.eff i) ec.body
        (modEff i (fun e => { e with runCount := e.runCount + 1 })
          (cleanupTracker (.eff i) (invokeCleanup i s))) with ⟨r, s4⟩
    have h4 : sigValues s4 = sigValues s := by
      have this1 := sigValues_runWithTracker (.eff i) ec.body
        (modEff i (fun e => { e with runCount := e.runCount + 1 })
          (cleanupTracker (.eff i) (invokeCleanup i s)))
      rw [hr] at this1
      dsimp only at this1
      rw [this1]
      show sigValues (cleanupTracker (.eff i) (invokeCleanup i s)) = sigValues s
      rw [sigValues_cleanupTracker, sigValues_invokeCleanup]
    dsimp only
    rw [hr]
    cases r with
    | ok v => exact h4
    | error er => exact h4

theorem sigValues_effNotify (i : Nat) (s : State) :
    sigValues (effNotify i s).2 = sigValues s := by
  unfold effNotify
  cases hc : (pushNotify (.eff i) s).effs[i]? with
  | none => rfl
  | some ec =>
    dsimp only
    by_cases h : ec.active = true
    · rw [if_pos h]
      exact sigValues_effExecute i _
    · rw [if_neg h]
      rfl

theorem sigValues_triggerLeaf (ts : List Tracker) (s : State) :
    sigValues (triggerLeaf ts s).2 = sigValues s := by
  induction ts generalizing s with
  | nil => rfl
  | cons t ts ih =>
    simp only [triggerLeaf]
    by_cases hd : s.batchDepth > 0
    · rw [if_pos hd, ih]
      rfl
    · rw [if_neg hd]
      cases t with
      | eff i =>
        dsimp only
        rcases hn : effNotify i (pushTrigger (.eff i) s) with ⟨r, s1⟩
        have he := sigValues_effNotify i (pushTrigger (.eff i) s)
        rw [hn] at he
        dsimp only at he
        cases r with
        | ok v =>
          dsimp only
          rw [ih, he]
          rfl
        | error er => exact he
      | comp i =>
        dsimp only
        rw [ih]
        rfl

theorem sigValues_compNotify (i : Nat) (s : State) :
    sigValues (compNotify i s).2 = sigValues s := by
  unfold compNotify
  cases hc : (pushNotify (.comp i) s).comps[i]? with
  | none => rfl
  | some cc =>
    dsimp only
    by_cases h : cc.dirty = true
    · rw [if_pos h]
      rfl
    · rw [if_neg h]
      rw [sigValues_triggerLeaf]
      rfl

theorem sigValues_notifyTracker (t : Tracker) (s : State) :
    sigValues (notifyTracker t s).2 = sigValues s := by
  cases t with
  | comp i => exact sigValues_compNotify i s
  | eff i => exact sigValues_effNotify i s

theorem sigValues_triggerTop (ts : List Tracker) (s : State) :
    sigValues (triggerTop ts s).2 = sigValues s := by
  induction ts generalizing s with
  | nil => rfl
  | cons t ts ih =>
    simp only [triggerTop]
    by_cases hd : s.batchDepth > 0
    · simp only [hd, if_true]
      rw [ih]
      rfl
    · simp only [hd, if_false]
      rcases hn : notifyTracker t (pushTrigger t s) with ⟨r, s1⟩
      have he := sigValues_notifyTracker t (pushTrigger t s)
      rw [hn] at he
      cases r with
      | ok v =>
        dsimp only
        rw [ih, he]
        rfl
      | error er => exact he

end Kra

namespace Kra

/-! ## The trigger log grows by exactly the trackers handed to trigger loops -/

theorem effNotify_triggerLog (i : Nat) (s : State) :
    (effNotify i s).2.triggerLog = s.triggerLog := by
  unfold effNotify
  cases hc : (pushNotify (.eff i) s).effs[i]? with
  | none => rfl
  | some ec =>
    dsimp only
    by_cases h : ec.active = true
    · rw [if_pos h]
      exact (quiet_effExecute i (pushNotify (.eff i) s)).2.2.1
    · rw [if_neg h]
      rfl

theorem triggerLeaf_triggerLog (ts : List Tracker) (s : State) :
    ∃ ext, (triggerLeaf ts s).2.triggerLog = s.triggerLog ++ ext := by
  induction ts generalizing s with
  | nil => exact ⟨[], by simp [triggerLeaf]⟩
  | cons t ts ih =>
    simp only [triggerLeaf]
    by_cases hd : s.batchDepth > 0
    · rw [if_pos hd]
      obtain ⟨ext, hext⟩ := ih (pushTrigger t { s with pending := addUnique t s.pending })
      refine ⟨t :: ext, ?_⟩
      rw [hext]
      simp [pushTrigger]
    · rw [if_neg hd]
      cases t with
      | eff i =>
        dsimp only
        rcases hn : effNotify i (pushTrigger (.eff i) s) with ⟨r, s1⟩
        have he := effNotify_triggerLog i (pushTrigger (.eff i) s)
        rw [hn] at he
        dsimp only at he
        cases r with
        | ok v =>
          dsimp only
          obtain ⟨ext, hext⟩ := ih s1
          refine ⟨Tracker.eff i :: ext, ?_⟩
          rw [hext, he]
          simp [pushTrigger]
        | error er =>
          refine ⟨[Tracker.eff i], ?_⟩
          dsimp only
          rw [he]
          simp [pushTrigger]
      | comp i =>
        dsimp only
        obtain ⟨ext, hext⟩ := ih (pushTrigger (.comp i) s)
        refine ⟨Tracker.comp i :: ext, ?_⟩
        rw [hext]
        simp [pushTrigger]

theorem compNotify_triggerLog (i : Nat) (s : State) :
    ∃ ext, (compNotify i s).2.triggerLog = s.triggerLog ++ ext := by
  unfold compNotify
  cases hc : (pushNotify (.comp i) s).comps[i]? with
  | none => exact ⟨[], by simp [pushNotify]⟩
  | some cc =>
    dsimp only
    by_cases h : cc.dirty = true
    · rw [if_pos h]
      exact ⟨[], by simp [pushNotify]⟩
    · rw [if_neg h]
      obtain ⟨ext, hext⟩ := triggerLeaf_triggerLog cc.subs
        (compMarkDirty i (pushNotify (.comp i) s))
      exact ⟨ext, by simpa [compMarkDirty, modComp, pushNotify] using hext⟩

theorem notifyTracker_triggerLog (t : Tracker) (s : State) :
    ∃ ext, (notifyTracker t s).2.triggerLog = s.triggerLog ++ ext := by
  cases t with
  | comp i => exact compNotify_triggerLog i s
  | eff i => exact ⟨[], by simp [notifyTracker, effNotify_triggerLog]⟩

/-- A trigger over a snapshot appends an extension to the trigger log that
contains (at least) every snapshot element, provided no notification threw. -/
theorem triggerTop_triggerLog (ts : List Tracker) (s : State) :
    ∃ ext, (triggerTop ts s).2.triggerLog = s.triggerLog ++ ext ∧
      ((triggerTop ts s).1 = .ok () → ∀ t ∈ ts, t ∈ ext) := by
  induction ts generalizing s with
  | nil => exact ⟨[], by simp [triggerTop], fun _ t ht => absurd ht (List.not_mem_nil t)⟩
  | cons t ts ih =>
    simp only [triggerTop]
    by_cases hd : s.batchDepth > 0
    · rw [if_pos hd]
      obtain ⟨ext, hext, hmem⟩ := ih (pushTrigger t { s with pending := addUnique t s.pending })
      refine ⟨t :: ext, ?_, ?_⟩
      · rw [hext]
        simp [pushTrigger]
      · intro hok u hu
        rcases List.mem_cons.1 hu with rfl | hu
        · exact List.mem_cons_self u ext
        · exact List.mem_cons_of_mem t (hmem hok u hu)
    · rw [if_neg hd]
      rcases hn : notifyTracker t (pushTrigger t s) with ⟨r, s1⟩
      have hne := notifyTracker_triggerLog t (pushTrigger t s)
      rw [hn] at hne
      obtain ⟨ext1, hext1⟩ := hne
      dsimp only at hext1
      cases r with
      | ok v =>
        dsimp only
        obtain ⟨ext2, hext2, hmem2⟩ := ih s1
        refine ⟨t :: (ext1 ++ ext2), ?_, ?_⟩
        · rw [hext2, hext1]
          simp [pushTrigger]
        · intro hok u hu
          rcases List.mem_cons.1 hu with rfl | hu
          · exact List.mem_cons_self u _
          · exact List.mem_cons_of_mem t (List.mem_append_right ext1 (hmem2 hok u hu))
      | error er =>
        refine ⟨t :: ext1, ?_, ?_⟩
        · dsimp only
          rw [hext1]
          simp [pushTrigger]
        · intro hok
          simp at hok

/-! ## The shape of a signal write -/

/-- A non-function write argument resolves to itself. -/
theorem resolveNext_not_fn (cur v : Value) (hv : v.isFunction = false) :
    resolveNext cur v = v := by
  cases v <;> first | rfl | simp [Value.isFunction] at hv

/-- An equal write (by `Object.is`) is a complete no-op. -/
theorem sigWrite_equal (i : Nat) (s : State) (sg : SignalCell) (v : Value)
    (hs : s.sigs[i]? = some sg) (hv : v.isFunction = false)
    (he : objectIs sg.value v = true) :
    sigWrite i v s = (.ok (), s) := by
  unfold sigWrite
  rw [hs]
  dsimp only
  rw [resolveNext_not_fn sg.value v hv, if_pos he]

/-- A value-changing write stores the new value and hands the subscriber
snapshot to the trigger loop. -/
theorem sigWrite_changed (i : Nat) (s : State) (sg : SignalCell) (v : Value)
    (hs : s.sigs[i]? = some sg) (hv : v.isFunction = false)
    (he : objectIs sg.value v = false) :
    sigWrite i v s =
      triggerTop sg.subs (modSig i (fun c => { c with value := v }) s) := by
  unfold sigWrite
  rw [hs]
  dsimp only
  rw [resolveNext_not_fn sg.value v hv, if_neg (by simp [he])]

theorem sigValueAt_of_sigValues {s s' : State} (h : sigValues s' = sigValues s) (i : Nat) :
    (s'.sigs[i]?).map (·.value) = (s.sigs[i]?).map (·.value) := by
  have h1 : (sigValues s')[i]? = (sigValues s)[i]? := by rw [h]
  simpa [sigValues, List.getElem?_map] using h1

end Kra

namespace Kra

/-! ## The memoization fields of computeds under evaluation-level operations

`compMetaAt s j` collects the fields of computed `j` that the laziness claims
are about: body, cached value, dirty flag and the instrumented `evalCount`.
Tracking, cleanup and body evaluation never change any of them; only the
dirty-validation block (`compEnsure`) and `compNotify`'s dirty-marking do. -/

def compMetaAt (s : State) (j : Nat) : Option (CExpr × Value × Bool × Nat) :=
  (s.comps[j]?).map (fun c => (c.body, c.cachedValue, c.dirty, c.evalCount))

theorem compMetaAt_modComp (i : Nat) (f : ComputedCell → ComputedCell)
    (hf : ∀ cl, ((f cl).body, (f cl).cachedValue, (f cl).dirty, (f cl).evalCount) =
      (cl.body, cl.cachedValue, cl.dirty, cl.evalCount)) (s : State) (j : Nat) :
    compMetaAt (modComp i f s) j = compMetaAt s j := by
  unfold compMetaAt modComp
  by_cases hji : j = i
  · subst hji
    show ((modIdx f j s.comps)[j]?).map _ = _
    rw [getElem?_modIdx_self]
    cases s.comps[j]? with
    | none => rfl
    | some cl => simpa using hf cl
  · show ((modIdx f i s.comps)[j]?).map _ = _
    rw [getElem?_modIdx_ne f i j s.comps hji]

theorem compMetaAt_trackAt (ref : SetRef) (s : State) (j : Nat) :
    compMetaAt (trackAt ref s) j = compMetaAt s j := by
  unfold trackAt
  cases s.activeTracker with
  | none => rfl
  | some t =>
    have h1 : compMetaAt (addSubAt ref t s) j = compMetaAt s j := by
      cases ref with
      | sig k => rfl
      | comp k =>
        exact compMetaAt_modComp k (fun cl => { cl with subs := addUnique t cl.subs })
          (fun cl => rfl) s j
    have h2 : ∀ s', compMetaAt (addDep t ref s') j = compMetaAt s' j := by
      intro s'
      cases t with
      | comp k =>
        exact compMetaAt_modComp k (fun cl => { cl with deps := addUnique ref cl.deps })
          (fun cl => rfl) s' j
      | eff k => rfl
    rw [h2, h1]

theorem compMetaAt_removeFromSubs (ref : SetRef) (t : Tracker) (s : State) (j : Nat) :
    compMetaAt (removeFromSubs ref t s) j = compMetaAt s j := by
  cases ref with
  | sig k => rfl
  | comp k =>
    exact compMetaAt_modComp k (fun cl => { cl with subs := removeElem t cl.subs })
      (fun cl => rfl) s j

theorem compMetaAt_clearDeps (t : Tracker) (s : State) (j : Nat) :
    compMetaAt (clearDeps t s) j = compMetaAt s j := by
  cases t with
  | comp k =>
    exact compMetaAt_modComp k (fun cl => { cl with deps := [] }) (fun cl => rfl) s j
  | eff k => rfl

theorem compMetaAt_cleanupTracker (t : Tracker) (s : State) (j : Nat) :
    compMetaAt (cleanupTracker t s) j = compMetaAt s j := by
  unfold cleanupTracker
  rw [compMetaAt_clearDeps]
  generalize depsOfTracker t s = refs
  induction refs generalizing s with
  | nil => rfl
  | cons r rs ih => rw [List.foldl_cons, ih, compMetaAt_removeFromSubs]

theorem compMetaAt_popTracker (s : State) (j : Nat) :
    compMetaAt (popTracker s) j = compMetaAt s j := by
  unfold popTracker
  cases s.trackerStack <;> rfl

theorem compMetaAt_sigRead (i : Nat) (s : State) (j : Nat) :
    compMetaAt (sigRead i s).2 j = compMetaAt s j := by
  unfold sigRead
  cases s.sigs[i]? with
  | none => rfl
  | some sg => exact compMetaAt_trackAt _ _ _

theorem compMetaAt_evalC (e : CExpr) (s : State) (j : Nat) :
    compMetaAt (evalC e s).2 j = compMetaAt s j := by
  induction e generalizing s with
  | lit v => rfl
  | readSig i => exact compMetaAt_sigRead i s j
  | peekSig i => rfl
  | mul a b iha ihb =>
    simp only [evalC]
    rcases ha : evalC a s with ⟨va, s1⟩
    rcases hb : evalC b s1 with ⟨vb, s2⟩
    have h1 := iha s
    have h2 := ihb s1
    rw [ha] at h1
    rw [hb] at h2
    dsimp only
    rw [h2, h1]
  | ite c t e ihc iht ihe =>
    simp only [evalC]
    rcases hc : evalC c s with ⟨vc, s1⟩
    have h1 := ihc s
    rw [hc] at h1
    dsimp only
    by_cases hv : truthy vc = true
    · rw [if_pos hv, iht, h1]
    · rw [if_neg hv, ihe, h1]

/-- Unpack a `compMetaAt` fact into the underlying cell. -/
theorem compMetaAt_eq_some {s : State} {c : Nat} {m : CExpr × Value × Bool × Nat}
    (h : compMetaAt s c = some m) :
    ∃ cl, s.comps[c]? = some cl ∧
      (cl.body, cl.cachedValue, cl.dirty, cl.evalCount) = m := by
  unfold compMetaAt at h
  cases hcc : s.comps[c]? with
  | none => rw [hcc] at h; cases h
  | some cl =>
    rw [hcc] at h
    exact ⟨cl, rfl, by simpa using h⟩

/-- The dirty-validation block: exactly one extra invocation of the wrapped
function, the result cached, and the dirty flag cleared. -/
theorem compEnsure_spec (c : Nat) (b : CExpr) (s0 : State) (cv : Value) (d : Bool) (n : Nat)
    (h : compMetaAt s0 c = some (b, cv, d, n)) :
    compMetaAt (compEnsure c b s0).2 c = some (b, (compEnsure c b s0).1, false, n + 1) := by
  have h3 : compMetaAt (modComp c (fun cl => { cl with evalCount := cl.evalCount + 1 })
      (cleanupTracker (.comp c) s0)) c = some (b, cv, d, n + 1) := by
    have hcl0 : compMetaAt (cleanupTracker (.comp c) s0) c = some (b, cv, d, n) := by
      rw [compMetaAt_cleanupTracker]
      exact h
    obtain ⟨cl, hcl, hm⟩ := compMetaAt_eq_some hcl0
    unfold compMetaAt
    have hred : (modComp c (fun cl => { cl with evalCount := cl.evalCount + 1 })
        (cleanupTracker (.comp c) s0)).comps =
        modIdx (fun cl => { cl with evalCount := cl.evalCount + 1 }) c
          (cleanupTracker (.comp c) s0).comps := rfl
    rw [hred, getElem?_modIdx_self, hcl]
    simp only [Prod.mk.injEq] at hm
    obtain ⟨hb, hcv, hd, hn⟩ := hm
    simp [hb, hcv, hd, hn]
  unfold compEnsure
  rcases hval : evalC b (pushTracker (some (.comp c))
      (modComp c (fun cl => { cl with evalCount := cl.evalCount + 1 })
        (cleanupTracker (.comp c) s0))) with ⟨v, s5⟩
  dsimp only
  have h5 : compMetaAt s5 c = some (b, cv, d, n + 1) := by
    have hev := compMetaAt_evalC b (pushTracker (some (.comp c))
      (modComp c (fun cl => { cl with evalCount := cl.evalCount + 1 })
        (cleanupTracker (.comp c) s0))) c
    rw [hval] at hev
    dsimp only at hev
    rw [hev]
    exact h3
  have h6 : compMetaAt (popTracker s5) c = some (b, cv, d, n + 1) := by
    rw [compMetaAt_popTracker]
    exact h5
  obtain ⟨cl, hcl, hm⟩ := compMetaAt_eq_some h6
  unfold compMetaAt
  have hred : (modComp c (fun cl => { cl with cachedValue := v, dirty := false })
      (popTracker s5)).comps =
      modIdx (fun cl => { cl with cachedValue := v, dirty := false }) c
        (popTracker s5).comps := rfl
  rw [hred, getElem?_modIdx_self, hcl]
  simp only [Prod.mk.injEq] at hm
  obtain ⟨hb, hcv, hd, hn⟩ := hm
  simp [hb, hn]

end Kra

namespace Kra

/-! ## The shapes of computed reads and notifications -/

/-- A read of a clean computed returns the cache and only tracks. -/
theorem compRead_clean (c : Nat) (s : State) (cc : ComputedCell)
    (hc : s.comps[c]? = some cc) (hd : cc.dirty = false) :
    compRead c s = (cc.cachedValue, trackAt (.comp c) s) := by
  unfold compRead
  rw [hc]
  dsimp only
  rw [if_neg (by simp [hd])]

/-- A read of a dirty computed tracks, then runs the validation block. -/
theorem compRead_dirty (c : Nat) (s : State) (cc : ComputedCell)
    (hc : s.comps[c]? = some cc) (hd : cc.dirty = true) :
    compRead c s = compEnsure c cc.body (trackAt (.comp c) s) := by
  unfold compRead
  rw [hc]
  dsimp only
  rw [if_pos hd]

/-- Notifying an already-dirty computed does nothing (beyond the notify-log
instrumentation). -/
theorem compNotify_dirty (c : Nat) (s : State) (cc : ComputedCell)
    (hc : s.comps[c]? = some cc) (hd : cc.dirty = true) :
    compNotify c s = (.ok (), pushNotify (.comp c) s) := by
  unfold compNotify
  rw [show (pushNotify (.comp c) s).comps[c]? = some cc from hc]
  dsimp only
  rw [if_pos hd]

/-- Notifying a clean computed only marks it dirty and triggers its own
subscriber snapshot: the computed's wrapped function is not invoked. -/
theorem compNotify_clean (c : Nat) (s : State) (cc : ComputedCell)
    (hc : s.comps[c]? = some cc) (hd : cc.dirty = false) :
    compNotify c s = triggerLeaf cc.subs (compMarkDirty c (pushNotify (.comp c) s)) := by
  unfold compNotify
  rw [show (pushNotify (.comp c) s).comps[c]? = some cc from hc]
  dsimp only
  rw [if_neg (by simp [hd])]

/-- Marking dirty changes no `evalCount`. -/
theorem evalCountAt_compMarkDirty (c : Nat) (s : State) (j : Nat) :
    ((compMarkDirty c s).comps[j]?).map (·.evalCount) =
      (s.comps[j]?).map (·.evalCount) := by
  unfold compMarkDirty
  have hred : (modComp c (fun cl => { cl with dirty := true }) s).comps =
      modIdx (fun cl => { cl with dirty := true }) c s.comps := rfl
  by_cases hjc : j = c
  · subst hjc
    rw [hred, getElem?_modIdx_self]
    cases s.comps[j]? with
    | none => rfl
    | some cl => rfl
  · rw [hred, getElem?_modIdx_ne _ _ _ _ hjc]

/-! ## Restoration of the active tracker and the tracker stack

Every evaluation restores `activeTracker`/`trackerStack` on exit — also when
the evaluated body throws, mirroring the `finally` blocks in kra.js. -/

def KeepsCtx (s s' : State) : Prop :=
  s'.activeTracker = s.activeTracker ∧ s'.trackerStack = s.trackerStack

theorem KeepsCtx.crefl (s : State) : KeepsCtx s s := ⟨rfl, rfl⟩

theorem KeepsCtx.ctrans {s1 s2 s3 : State} (h1 : KeepsCtx s1 s2) (h2 : KeepsCtx s2 s3) :
    KeepsCtx s1 s3 := ⟨h2.1.trans h1.1, h2.2.trans h1.2⟩

theorem ctx_addSubAt (ref : SetRef) (t : Tracker) (s : State) :
    KeepsCtx s (addSubAt ref t s) := by
  cases ref <;> exact ⟨rfl, rfl⟩

theorem ctx_addDep (t : Tracker) (ref : SetRef) (s : State) :
    KeepsCtx s (addDep t ref s) := by
  cases t <;> exact ⟨rfl, rfl⟩

theorem ctx_trackAt (ref : SetRef) (s : State) : KeepsCtx s (trackAt ref s) := by
  unfold trackAt
  cases s.activeTracker with
  | none => exact KeepsCtx.crefl s
  | some t => exact (ctx_addSubAt ref t s).ctrans (ctx_addDep t ref _)

theorem ctx_removeFromSubs (ref : SetRef) (t : Tracker) (s : State) :
    KeepsCtx s (removeFromSubs ref t s) := by
  cases ref <;> exact ⟨rfl, rfl⟩

theorem ctx_clearDeps (t : Tracker) (s : State) : KeepsCtx s (clearDeps t s) := by
  cases t <;> exact ⟨rfl, rfl⟩

theorem ctx_cleanupTracker (t : Tracker) (s : State) : KeepsCtx s (cleanupTracker t s) := by
  unfold cleanupTracker
  refine KeepsCtx.ctrans ?_ (ctx_clearDeps t _)
  generalize depsOfTracker t s = refs
  induction refs generalizing s with
  | nil => exact KeepsCtx.crefl s
  | cons r rs ih => exact (ctx_removeFromSubs r t s).ctrans (ih _)

theorem ctx_sigRead (i : Nat) (s : State) : KeepsCtx s (sigRead i s).2 := by
  unfold sigRead
  cases s.sigs[i]? with
  | none => exact KeepsCtx.crefl s
  | some sg => exact ctx_trackAt _ _

theorem ctx_evalC (e : CExpr) (s : State) : KeepsCtx s (evalC e s).2 := by
  induction e generalizing s with
  | lit v => exact KeepsCtx.crefl s
  | readSig i => exact ctx_sigRead i s
  | peekSig i => exact KeepsCtx.crefl s
  | mul a b iha ihb =>
    simp only [evalC]
    rcases ha : evalC a s with ⟨va, s1⟩
    rcases hb : evalC b s1 with ⟨vb, s2⟩
    have h1 := iha s
    have h2 := ihb s1
    rw [ha] at h1
    rw [hb] at h2
    exact h1.ctrans h2
  | ite c t e ihc iht ihe =>
    simp only [evalC]
    rcases hc : evalC c s with ⟨vc, s1⟩
    have h1 := ihc s
    rw [hc] at h1
    dsimp only
    by_cases hv : truthy vc = true
    · rw [if_pos hv]
      exact h1.ctrans (iht s1)
    · rw [if_neg hv]
      exact h1.ctrans (ihe s1)

/-- Popping after a push restores what was pushed over. -/
theorem ctx_pop_of_stack (s5 : State) (a : Option Tracker) (st : List (Option Tracker))
    (h : s5.trackerStack = a :: st) :
    (popTracker s5).activeTracker = a ∧ (popTracker s5).trackerStack = st := by
  unfold popTracker
  rw [h]
  exact ⟨rfl, rfl⟩

theorem ctx_compEnsure (c : Nat) (b : CExpr) (s : State) :
    KeepsCtx s (compEnsure c b s).2 := by
  unfold compEnsure
  rcases hval : evalC b (pushTracker (some (.comp c))
      (modComp c (fun cl => { cl with evalCount := cl.evalCount + 1 })
        (cleanupTracker (.comp c) s))) with ⟨v, s5⟩
  have hin : KeepsCtx s (modComp c (fun cl => { cl with evalCount := cl.evalCount + 1 })
      (cleanupTracker (.comp c) s)) :=
    (ctx_cleanupTracker _ s).ctrans ⟨rfl, rfl⟩
  have hev := ctx_evalC b (pushTracker (some (.comp c))
      (modComp c (fun cl => { cl with evalCount := cl.evalCount + 1 })
        (cleanupTracker (.comp c) s)))
  rw [hval] at hev
  have hstack : s5.trackerStack = s.activeTracker :: s.trackerStack := by
    have := hev.2
    dsimp only [pushTracker] at this
    rw [this, hin.1, hin.2]
  have hpop := ctx_pop_of_stack s5 s.activeTracker s.trackerStack hstack
  dsimp only
  exact ⟨hpop.1, hpop.2⟩

theorem ctx_compRead (i : Nat) (s : State) : KeepsCtx s (compRead i s).2 := by
  unfold compRead
  cases s.comps[i]? with
  | none => exact KeepsCtx.crefl s
  | some cc =>
    dsimp only
    by_cases h : cc.dirty = true
    · rw [if_pos h]
      exact (ctx_trackAt _ s).ctrans (ctx_compEnsure _ _ _)
    · rw [if_neg h]
      exact ctx_trackAt _ s

theorem ctx_evalE (e : EExpr) (s : State) : KeepsCtx s (evalE e s).2 := by
  induction e generalizing s with
  | lit v => exact KeepsCtx.crefl s
  | readSig i => exact ctx_sigRead i s
  | peekSig i => exact KeepsCtx.crefl s
  | readComp i => exact ctx_compRead i s
  | push e ih =>
    simp only [evalE]
    rcases h : evalE e s with ⟨r, s1⟩
    have h1 := ih s
    rw [h] at h1
    cases r with
    | ok v => exact h1.ctrans ⟨rfl, rfl⟩
    | error er => exact h1
  | seq a b iha ihb =>
    simp only [evalE]
    rcases h : evalE a s with ⟨r, s1⟩
    have ha := iha s
    rw [h] at ha
    cases r with
    | ok v => exact ha.ctrans (ihb s1)
    | error er => exact ha
  | ite c t e ihc iht ihe =>
    simp only [evalE]
    rcases h : evalE c s with ⟨r, s1⟩
    have hc := ihc s
    rw [h] at hc
    cases r with
    | ok v =>
      dsimp only
      by_cases hv : truthy v = true
      · rw [if_pos hv]
        exact hc.ctrans (iht s1)
      · rw [if_neg hv]
        exact hc.ctrans (ihe s1)
    | error er => exact hc
  | untrack e ih =>
    simp only [evalE]
    rcases h : evalE e (pushTracker none s) with ⟨r, s2⟩
    have h1 := ih (pushTracker none s)
    rw [h] at h1
    have hstack : s2.trackerStack = s.activeTracker :: s.trackerStack := by
      have := h1.2
      dsimp only [pushTracker] at this
      exact this
    have hpop := ctx_pop_of_stack s2 s.activeTracker s.trackerStack hstack
    exact ⟨hpop.1, hpop.2⟩
  | throwE => exact KeepsCtx.crefl s

/-- `untrack` restores the previous active tracker and the stack — also when
the body throws (there is no hypothesis on the body's result). -/
theorem ctx_untrack (e : EExpr) (s : State) : KeepsCtx s (untrack e s).2 := by
  unfold untrack
  rcases h : evalE e (pushTracker none s) with ⟨r, s2⟩
  have h1 := ctx_evalE e (pushTracker none s)
  rw [h] at h1
  have hstack : s2.trackerStack = s.activeTracker :: s.trackerStack := by
    have := h1.2
    dsimp only [pushTracker] at this
    exact this
  have hpop := ctx_pop_of_stack s2 s.activeTracker s.trackerStack hstack
  exact ⟨hpop.1, hpop.2⟩

/-- `runWithTracker` restores the previous active tracker and the stack —
also when the body throws. -/
theorem ctx_runWithTracker (t : Tracker) (e : EExpr) (s : State) :
    KeepsCtx s (runWithTracker t e s).2 := by
  unfold runWithTracker
  rcases h : evalE e (pushTracker (some t) s) with ⟨r, s2⟩
  have h1 := ctx_evalE e (pushTracker (some t) s)
  rw [h] at h1
  have hstack : s2.trackerStack = s.activeTracker :: s.trackerStack := by
    have := h1.2
    dsimp only [pushTracker] at this
    exact this
  have hpop := ctx_pop_of_stack s2 s.activeTracker s.trackerStack hstack
  exact ⟨hpop.1, hpop.2⟩

end Kra

namespace Kra

/-! ## Untracked evaluation registers nothing -/

/-- `track` is a no-op when no tracker is active. -/
theorem trackAt_none (ref : SetRef) (s : State) (h : s.activeTracker = none) :
    trackAt ref s = s := by
  unfold trackAt
  rw [h]

/-- Syntactic check: the code reads no computed. -/
def EExpr.noCompRead : EExpr → Bool
  | .readComp _ => false
  | .push e => e.noCompRead
  | .seq a b => a.noCompRead && b.noCompRead
  | .ite c t e => c.noCompRead && t.noCompRead && e.noCompRead
  | .untrack e => e.noCompRead
  | _ => true

/-- Evaluating computed-read-free code with no active tracker changes no
signal cell (value or subscriber set), no computed cell and no effect cell:
nothing subscribes. -/
theorem untracked_evalE (e : EExpr) (s : State) (hA : s.activeTracker = none)
    (hn : e.noCompRead = true) :
    (evalE e s).2.sigs = s.sigs ∧ (evalE e s).2.comps = s.comps ∧
      (evalE e s).2.effs = s.effs := by
  induction e generalizing s with
  | lit v => exact ⟨rfl, rfl, rfl⟩
  | readSig i =>
    show (sigRead i s).2.sigs = s.sigs ∧ (sigRead i s).2.comps = s.comps ∧
      (sigRead i s).2.effs = s.effs
    unfold sigRead
    cases s.sigs[i]? with
    | none => exact ⟨rfl, rfl, rfl⟩
    | some sg =>
      rw [trackAt_none _ _ hA]
      exact ⟨rfl, rfl, rfl⟩
  | peekSig i => exact ⟨rfl, rfl, rfl⟩
  | readComp i => simp [EExpr.noCompRead] at hn
  | push e ih =>
    simp only [evalE]
    rcases h : evalE e s with ⟨r, s1⟩
    have h1 := ih s hA (by simpa [EExpr.noCompRead] using hn)
    rw [h] at h1
    cases r with
    | ok v => exact h1
    | error er => exact h1
  | seq a b iha ihb =>
    simp only [evalE]
    rcases h : evalE a s with ⟨r, s1⟩
    simp only [EExpr.noCompRead, Bool.and_eq_true] at hn
    have ha := iha s hA hn.1
    rw [h] at ha
    cases r with
    | ok v =>
      have hA1 : s1.activeTracker = none := by
        have := (ctx_evalE a s).1
        rw [h] at this
        rw [this, hA]
      have hb := ihb s1 hA1 hn.2
      exact ⟨hb.1.trans ha.1, hb.2.1.trans ha.2.1, hb.2.2.trans ha.2.2⟩
    | error er => exact ha
  | ite c t e ihc iht ihe =>
    simp only [evalE]
    rcases h : evalE c s with ⟨r, s1⟩
    simp only [EExpr.noCompRead, Bool.and_eq_true] at hn
    have hc := ihc s hA hn.1.1
    rw [h] at hc
    cases r with
    | ok v =>
      have hA1 : s1.activeTracker = none := by
        have := (ctx_evalE c s).1
        rw [h] at this
        rw [this, hA]
      dsimp only
      by_cases hv : truthy v = true
      · rw [if_pos hv]
        have ht := iht s1 hA1 hn.1.2
        exact ⟨ht.1.trans hc.1, ht.2.1.trans hc.2.1, ht.2.2.trans hc.2.2⟩
      · rw [if_neg hv]
        have he := ihe s1 hA1 hn.2
        exact ⟨he.1.trans hc.1, he.2.1.trans hc.2.1, he.2.2.trans hc.2.2⟩
    | error er => exact hc
  | untrack e ih =>
    simp only [evalE]
    rcases h : evalE e (pushTracker none s) with ⟨r, s2⟩
    have h1 := ih (pushTracker none s) rfl (by simpa [EExpr.noCompRead] using hn)
    rw [h] at h1
    have hpop : (popTracker s2).sigs = s2.sigs ∧ (popTracker s2).comps = s2.comps ∧
        (popTracker s2).effs = s2.effs := by
      unfold popTracker
      cases s2.trackerStack <;> exact ⟨rfl, rfl, rfl⟩
    exact ⟨hpop.1.trans h1.1, hpop.2.1.trans h1.2.1, hpop.2.2.trans h1.2.2⟩
  | throwE => exact ⟨rfl, rfl, rfl⟩

/-! ## States whose effects are all disposed -/

/-- Every effect in the state is inactive. -/
def allInactive (s : State) : Prop := ∀ ec ∈ s.effs, ec.active = false

theorem allInactive_of_effs_eq {s s' : State} (h : s'.effs = s.effs) (ha : allInactive s) :
    allInactive s' := by
  intro ec hec
  exact ha ec (h ▸ hec)

/-- A notification of any effect in an all-inactive state does nothing. -/
theorem effNotify_allInactive (i : Nat) (s : State) (h : allInactive s) :
    effNotify i s = (.ok (), pushNotify (.eff i) s) := by
  unfold effNotify
  cases hc : (pushNotify (.eff i) s).effs[i]? with
  | none => rfl
  | some ec =>
    dsimp only
    have hmem : ec ∈ s.effs := List.getElem?_mem hc
    rw [if_neg (by simp [h ec hmem])]

theorem triggerLeaf_allInactive (ts : List Tracker) (s : State) (h : allInactive s) :
    (triggerLeaf ts s).1 = .ok () ∧ (triggerLeaf ts s).2.effs = s.effs ∧
      (triggerLeaf ts s).2.log = s.log := by
  induction ts generalizing s with
  | nil => exact ⟨rfl, rfl, rfl⟩
  | cons t ts ih =>
    simp only [triggerLeaf]
    by_cases hd : s.batchDepth > 0
    · rw [if_pos hd]
      have := ih (pushTrigger t { s with pending := addUnique t s.pending })
        (allInactive_of_effs_eq rfl h)
      exact this
    · rw [if_neg hd]
      cases t with
      | eff i =>
        dsimp only
        rw [effNotify_allInactive i (pushTrigger (.eff i) s)
          (allInactive_of_effs_eq rfl h)]
        exact ih (pushNotify (.eff i) (pushTrigger (.eff i) s))
          (allInactive_of_effs_eq rfl h)
      | comp i =>
        dsimp only
        exact ih (pushTrigger (.comp i) s) (allInactive_of_effs_eq rfl h)

theorem compNotify_allInactive (i : Nat) (s : State) (h : allInactive s) :
    (compNotify i s).1 = .ok () ∧ (compNotify i s).2.effs = s.effs ∧
      (compNotify i s).2.log = s.log := by
  unfold compNotify
  cases hc : (pushNotify (.comp i) s).comps[i]? with
  | none => exact ⟨rfl, rfl, rfl⟩
  | some cc =>
    dsimp only
    by_cases hd : cc.dirty = true
    · rw [if_pos hd]
      exact ⟨rfl, rfl, rfl⟩
    · rw [if_neg hd]
      exact triggerLeaf_allInactive cc.subs (compMarkDirty i (pushNotify (.comp i) s))
        (allInactive_of_effs_eq rfl h)

theorem triggerTop_allInactive (ts : List Tracker) (s : State) (h : allInactive s) :
    (triggerTop ts s).1 = .ok () ∧ (triggerTop ts s).2.effs = s.effs ∧
      (triggerTop ts s).2.log = s.log := by
  induction ts generalizing s with
  | nil => exact ⟨rfl, rfl, rfl⟩
  | cons t ts ih =>
    simp only [triggerTop]
    by_cases hd : s.batchDepth > 0
    · rw [if_pos hd]
      exact ih (pushTrigger t { s with pending := addUnique t s.pending })
        (allInactive_of_effs_eq rfl h)
    · rw [if_neg hd]
      cases t with
      | eff i =>
        dsimp only [notifyTracker]
        rw [effNotify_allInactive i (pushTrigger (.eff i) s)
          (allInactive_of_effs_eq rfl h)]
        exact ih (pushNotify (.eff i) (pushTrigger (.eff i) s))
          (allInactive_of_effs_eq rfl h)
      | comp i =>
        dsimp only [notifyTracker]
        rcases hn : compNotify i (pushTrigger (.comp i) s) with ⟨r, s1⟩
        have hcn := compNotify_allInactive i (pushTrigger (.comp i) s)
          (allInactive_of_effs_eq rfl h)
        rw [hn] at hcn
        cases r with
        | ok v =>
          dsimp only
          have := ih s1 (allInactive_of_effs_eq hcn.2.1 (allInactive_of_effs_eq rfl h))
          exact ⟨this.1, this.2.1.trans hcn.2.1, this.2.2.trans hcn.2.2⟩
        | error er => exact absurd hcn.1 (by simp)

/-- A signal write in an all-inactive state succeeds, runs no effect body and
appends nothing to the log. -/
theorem sigWrite_allInactive (i : Nat) (v : Value) (s : State) (h : allInactive s) :
    (sigWrite i v s).1 = .ok () ∧ (sigWrite i v s).2.effs = s.effs ∧
      (sigWrite i v s).2.log = s.log := by
  unfold sigWrite
  cases hs : s.sigs[i]? with
  | none => exact ⟨rfl, rfl, rfl⟩
  | some sg =>
    dsimp only
    by_cases he : objectIs sg.value (resolveNext sg.value v) = true
    · rw [if_pos he]
      exact ⟨rfl, rfl, rfl⟩
    · rw [if_neg he]
      exact triggerTop_allInactive sg.subs _ (allInactive_of_effs_eq rfl h)

end Kra

namespace Kra

/-! ## A disposed effect is never evaluated again

`effStatusAt s i` is the pair (active flag, body-invocation count) of effect
`i`.  Evaluation-level operations never change it for any effect; the notify
level changes it only for effects that are still active.  Hence a disposed
(inactive) effect keeps `runCount` forever, under any top-level program. -/

def effStatusAt (s : State) (i : Nat) : Option (Bool × Nat) :=
  (s.effs[i]?).map (fun e => (e.active, e.runCount))

/-- Effect `i` is inactive (when it exists). -/
def EffOff (s : State) (i : Nat) : Prop :=
  ∀ ec, s.effs[i]? = some ec → ec.active = false

theorem effOff_of_statusEq {s s' : State} {i : Nat}
    (h : effStatusAt s' i = effStatusAt s i) (ho : EffOff s i) : EffOff s' i := by
  intro ec hec
  unfold effStatusAt at h
  rw [hec] at h
  cases hsc : s.effs[i]? with
  | none =>
    rw [hsc] at h
    exact absurd h (by simp)
  | some ec0 =>
    rw [hsc] at h
    simp only [Option.map_some', Option.some.injEq, Prod.mk.injEq] at h
    rw [h.1]
    exact ho ec0 hsc

theorem effStatusAt_modEff_pres (j : Nat) (f : EffectCell → EffectCell)
    (hf : ∀ e, ((f e).active, (f e).runCount) = (e.active, e.runCount))
    (s : State) (i : Nat) :
    effStatusAt (modEff j f s) i = effStatusAt s i := by
  unfold effStatusAt
  have hred : (modEff j f s).effs = modIdx f j s.effs := rfl
  by_cases hij : i = j
  · subst hij
    rw [hred, getElem?_modIdx_self]
    cases s.effs[i]? with
    | none => rfl
    | some e => simpa using hf e
  · rw [hred, getElem?_modIdx_ne f j i s.effs hij]

theorem effStatusAt_modEff_ne (j : Nat) (f : EffectCell → EffectCell)
    (s : State) (i : Nat) (hij : i ≠ j) :
    effStatusAt (modEff j f s) i = effStatusAt s i := by
  unfold effStatusAt
  have hred : (modEff j f s).effs = modIdx f j s.effs := rfl
  rw [hred, getElem?_modIdx_ne f j i s.effs hij]

theorem effStatusAt_trackAt (ref : SetRef) (s : State) (i : Nat) :
    effStatusAt (trackAt ref s) i = effStatusAt s i := by
  unfold trackAt
  cases s.activeTracker with
  | none => rfl
  | some t =>
    have h1 : effStatusAt (addSubAt ref t s) i = effStatusAt s i := by
      cases ref <;> rfl
    have h2 : ∀ s', effStatusAt (addDep t ref s') i = effStatusAt s' i := by
      intro s'
      cases t with
      | comp k => rfl
      | eff k =>
        exact effStatusAt_modEff_pres k (fun e => { e with deps := addUnique ref e.deps })
          (fun e => rfl) s' i
    rw [h2, h1]

theorem effStatusAt_removeFromSubs (ref : SetRef) (t : Tracker) (s : State) (i : Nat) :
    effStatusAt (removeFromSubs ref t s) i = effStatusAt s i := by
  cases ref <;> rfl

theorem effStatusAt_clearDeps (t : Tracker) (s : State) (i : Nat) :
    effStatusAt (clearDeps t s) i = effStatusAt s i := by
  cases t with
  | comp k => rfl
  | eff k =>
    exact effStatusAt_modEff_pres k (fun e => { e with deps := [] }) (fun e => rfl) s i

theorem effStatusAt_cleanupTracker (t : Tracker) (s : State) (i : Nat) :
    effStatusAt (cleanupTracker t s) i = effStatusAt s i := by
  unfold cleanupTracker
  rw [effStatusAt_clearDeps]
  generalize depsOfTracker t s = refs
  induction refs generalizing s with
  | nil => rfl
  | cons r rs ih => rw [List.foldl_cons, ih, effStatusAt_removeFromSubs]

theorem effStatusAt_popTracker (s : State) (i : Nat) :
    effStatusAt (popTracker s) i = effStatusAt s i := by
  unfold popTracker
  cases s.trackerStack <;> rfl

theorem effStatusAt_sigRead (k : Nat) (s : State) (i : Nat) :
    effStatusAt (sigRead k s).2 i = effStatusAt s i := by
  unfold sigRead
  cases s.sigs[k]? with
  | none => rfl
  | some sg => exact effStatusAt_trackAt _ _ _

theorem effStatusAt_evalC (e : CExpr) (s : State) (i : Nat) :
    effStatusAt (evalC e s).2 i = effStatusAt s i := by
  induction e generalizing s with
  | lit v => rfl
  | readSig k => exact effStatusAt_sigRead k s i
  | peekSig k => rfl
  | mul a b iha ihb =>
    simp only [evalC]
    rcases ha : evalC a s with ⟨va, s1⟩
    rcases hb : evalC b s1 with ⟨vb, s2⟩
    have h1 := iha s
    have h2 := ihb s1
    rw [ha] at h1
    rw [hb] at h2
    dsimp only
    rw [h2, h1]
  | ite c t e ihc iht ihe =>
    simp only [evalC]
    rcases hc : evalC c s with ⟨vc, s1⟩
    have h1 := ihc s
    rw [hc] at h1
    dsimp only
    by_cases hv : truthy vc = true
    · rw [if_pos hv, iht, h1]
    · rw [if_neg hv, ihe, h1]

theorem effStatusAt_compEnsure (c : Nat) (b : CExpr) (s : State) (i : Nat) :
    effStatusAt (compEnsure c b s).2 i = effStatusAt s i := by
  unfold compEnsure
  rcases hval : evalC b (pushTracker (some (.comp c))
      (modComp c (fun cl => { cl with evalCount := cl.evalCount + 1 })
        (cleanupTracker (.comp c) s))) with ⟨v, s5⟩
  have hev := effStatusAt_evalC b (pushTracker (some (.comp c))
      (modComp c (fun cl => { cl with evalCount := cl.evalCount + 1 })
        (cleanupTracker (.comp c) s))) i
  rw [hval] at hev
  dsimp only
  show effStatusAt (popTracker s5) i = effStatusAt s i
  rw [effStatusAt_popTracker]
  rw [hev]
  show effStatusAt (cleanupTracker (.comp c) s) i = effStatusAt s i
  rw [effStatusAt_cleanupTracker]

theorem effStatusAt_compRead (c : Nat) (s : State) (i : Nat) :
    effStatusAt (compRead c s).2 i = effStatusAt s i := by
  unfold compRead
  cases s.comps[c]? with
  | none => rfl
  | some cc =>
    dsimp only
    by_cases h : cc.dirty = true
    · rw [if_pos h, effStatusAt_compEnsure, effStatusAt_trackAt]
    · rw [if_neg h]
      exact effStatusAt_trackAt _ _ _

theorem effStatusAt_evalE (e : EExpr) (s : State) (i : Nat) :
    effStatusAt (evalE e s).2 i = effStatusAt s i := by
  induction e generalizing s with
  | lit v => rfl
  | readSig k => exact effStatusAt_sigRead k s i
  | peekSig k => rfl
  | readComp k => exact effStatusAt_compRead k s i
  | push e ih =>
    simp only [evalE]
    rcases h : evalE e s with ⟨r, s1⟩
    have h1 := ih s
    rw [h] at h1
    cases r with
    | ok v => exact h1
    | error er => exact h1
  | seq a b iha ihb =>
    simp only [evalE]
    rcases h : evalE a s with ⟨r, s1⟩
    have ha := iha s
    rw [h] at ha
    cases r with
    | ok v => rw [ihb, ha]
    | error er => exact ha
  | ite c t e ihc iht ihe =>
    simp only [evalE]
    rcases h : evalE c s with ⟨r, s1⟩
    have hc := ihc s
    rw [h] at hc
    cases r with
    | ok v =>
      dsimp only
      by_cases hv : truthy v = true
      · rw [if_pos hv, iht, hc]
      · rw [if_neg hv, ihe, hc]
    | error er => exact hc
  | untrack e ih =>
    simp only [evalE]
    rcases h : evalE e (pushTracker none s) with ⟨r, s2⟩
    have h1 := ih (pushTracker none s)
    rw [h] at h1
    dsimp only
    rw [effStatusAt_popTracker, h1]
    rfl
  | throwE => rfl

theorem effStatusAt_runWithTracker (t : Tracker) (e : EExpr) (s : State) (i : Nat) :
    effStatusAt (runWithTracker t e s).2 i = effStatusAt s i := by
  unfold runWithTracker
  rcases h : evalE e (pushTracker (some t) s) with ⟨r, s2⟩
  have h1 := effStatusAt_evalE e (pushTracker (some t) s) i
  rw [h] at h1
  dsimp only
  rw [effStatusAt_popTracker, h1]
  rfl

theorem effStatusAt_invokeCleanup (j : Nat) (s : State) (i : Nat) :
    effStatusAt (invokeCleanup j s) i = effStatusAt s i := by
  unfold invokeCleanup
  cases s.effs[j]? with
  | none => rfl
  | some ec =>
    by_cases h : ec.cleanupFn.isFunction
    · simp only [h, if_true]
      exact effStatusAt_modEff_pres j (fun e => { e with cleanupCount := e.cleanupCount + 1 })
        (fun e => rfl) s i
    · simp only [h, if_false]
      rfl

theorem effStatusAt_effExecute_ne (j : Nat) (s : State) (i : Nat) (hij : i ≠ j) :
    effStatusAt (effExecute j s).2 i = effStatusAt s i := by
  unfold effExecute
  cases s.effs[j]? with
  | none => rfl
  | some ec =>
    dsimp only
    rcases hr : runWithTracker (.eff j) ec.body
        (modEff j (fun e => { e with runCount := e.runCount + 1 })
          (cleanupTracker (.eff j) (invokeCleanup j s))) with ⟨r, s4⟩
    have h4 : effStatusAt s4 i = effStatusAt s i := by
      have h1 := effStatusAt_runWithTracker (.eff j) ec.body
        (modEff j (fun e => { e with runCount := e.runCount + 1 })
          (cleanupTracker (.eff j) (invokeCleanup j s))) i
      rw [hr] at h1
      dsimp only at h1
      rw [h1, effStatusAt_modEff_ne _ _ _ _ hij, effStatusAt_cleanupTracker,
        effStatusAt_invokeCleanup]
    cases r with
    | ok v =>
      dsimp only
      rw [effStatusAt_modEff_ne _ _ _ _ hij, h4]
    | error er => exact h4

theorem effStatusAt_effNotify (j : Nat) (s : State) (i : Nat) (ho : EffOff s i) :
    effStatusAt (effNotify j s).2 i = effStatusAt s i := by
  unfold effNotify
  cases hc : (pushNotify (.eff j) s).effs[j]? with
  | none => rfl
  | some ec =>
    dsimp only
    by_cases ha : ec.active = true
    · rw [if_pos ha]
      by_cases hij : i = j
      · subst hij
        exact absurd (ho ec hc) (by simp [ha])
      · exact effStatusAt_effExecute_ne j _ i hij
    · rw [if_neg ha]
      rfl

theorem effStatusAt_triggerLeaf (ts : List Tracker) (s : State) (i : Nat) (ho : EffOff s i) :
    effStatusAt (triggerLeaf ts s).2 i = effStatusAt s i := by
  induction ts generalizing s with
  | nil => rfl
  | cons t ts ih =>
    simp only [triggerLeaf]
    by_cases hd : s.batchDepth > 0
    · rw [if_pos hd]
      exact ih _ ho
    · rw [if_neg hd]
      cases t with
      | eff j =>
        dsimp only
        rcases hn : effNotify j (pushTrigger (.eff j) s) with ⟨r, s1⟩
        have he := effStatusAt_effNotify j (pushTrigger (.eff j) s) i ho
        rw [hn] at he
        dsimp only at he
        cases r with
        | ok v =>
          dsimp only
          rw [ih s1 (effOff_of_statusEq he ho), he]
          rfl
        | error er => exact he
      | comp j =>
        dsimp only
        exact ih _ ho

theorem effStatusAt_compNotify (j : Nat) (s : State) (i : Nat) (ho : EffOff s i) :
    effStatusAt (compNotify j s).2 i = effStatusAt s i := by
  unfold compNotify
  cases hc : (pushNotify (.comp j) s).comps[j]? with
  | none => rfl
  | some cc =>
    dsimp only
    by_cases hd : cc.dirty = true
    · rw [if_pos hd]
      rfl
    · rw [if_neg hd]
      exact effStatusAt_triggerLeaf cc.subs _ i ho

theorem effStatusAt_notifyTracker (t : Tracker) (s : State) (i : Nat) (ho : EffOff s i) :
    effStatusAt (notifyTracker t s).2 i = effStatusAt s i := by
  cases t with
  | comp j => exact effStatusAt_compNotify j s i ho
  | eff j => exact effStatusAt_effNotify j s i ho

theorem effStatusAt_triggerTop (ts : List Tracker) (s : State) (i : Nat) (ho : EffOff s i) :
    effStatusAt (triggerTop ts s).2 i = effStatusAt s i := by
  induction ts generalizing s with
  | nil => rfl
  | cons t ts ih =>
    simp only [triggerTop]
    by_cases hd : s.batchDepth > 0
    · rw [if_pos hd]
      exact ih _ ho
    · rw [if_neg hd]
      rcases hn : notifyTracker t (pushTrigger t s) with ⟨r, s1⟩
      have he := effStatusAt_notifyTracker t (pushTrigger t s) i ho
      rw [hn] at he
      dsimp only at he
      cases r with
      | ok v =>
        dsimp only
        rw [ih s1 (effOff_of_statusEq he ho), he]
        rfl
      | error er => exact he

theorem effStatusAt_drain (ts : List Tracker) (s : State) (i : Nat) (ho : EffOff s i) :
    effStatusAt (drain ts s).2 i = effStatusAt s i := by
  induction ts generalizing s with
  | nil => rfl
  | cons t ts ih =>
    simp only [drain]
    rcases hn : notifyTracker t s with ⟨r, s1⟩
    have he := effStatusAt_notifyTracker t s i ho
    rw [hn] at he
    cases r with
    | ok v =>
      dsimp only
      rw [ih s1 (effOff_of_statusEq he ho), he]
    | error er => exact he

theorem effStatusAt_sigWrite (k : Nat) (v : Value) (s : State) (i : Nat) (ho : EffOff s i) :
    effStatusAt (sigWrite k v s).2 i = effStatusAt s i := by
  unfold sigWrite
  cases hs : s.sigs[k]? with
  | none => rfl
  | some sg =>
    dsimp only
    by_cases he : objectIs sg.value (resolveNext sg.value v) = true
    · rw [if_pos he]
    · rw [if_neg he]
      exact effStatusAt_triggerTop sg.subs _ i ho

theorem effStatusAt_disposeEffect (j : Nat) (s : State) (i : Nat) (ho : EffOff s i) :
    effStatusAt (disposeEffect j s) i = effStatusAt s i := by
  unfold disposeEffect
  cases hc : s.effs[j]? with
  | none => rfl
  | some ec =>
    dsimp only
    by_cases ha : ec.active = true
    · rw [if_pos ha]
      by_cases hij : i = j
      · subst hij
        exact absurd (ho ec hc) (by simp [ha])
      · rw [effStatusAt_cleanupTracker, effStatusAt_invokeCleanup,
          effStatusAt_modEff_ne _ _ _ _ hij]
    · rw [if_neg ha]

/-- Under any top-level program, a disposed effect stays disposed and its body
is never invoked again: its (active, runCount) status is untouched. -/
theorem effStatusAt_runProg (p : Prog) (s : State) (i : Nat) (ho : EffOff s i) :
    effStatusAt (runProg p s).2 i = effStatusAt s i := by
  induction p generalizing s with
  | skip => rfl
  | run e => exact effStatusAt_evalE e s i
  | writeSig k v =>
    simp only [runProg]
    rcases hr : sigWrite k v s with ⟨r, s1⟩
    have h1 := effStatusAt_sigWrite k v s i ho
    rw [hr] at h1
    exact h1
  | readSig k => exact effStatusAt_sigRead k s i
  | readComp k => exact effStatusAt_compRead k s i
  | dispose j => exact effStatusAt_disposeEffect j s i ho
  | seq a b iha ihb =>
    simp only [runProg]
    rcases hr : runProg a s with ⟨r, s1⟩
    have ha := iha s ho
    rw [hr] at ha
    cases r with
    | ok v =>
      dsimp only
      rw [ihb s1 (effOff_of_statusEq ha ho), ha]
    | error er => exact ha
  | batch p ih =>
    simp only [runProg]
    rcases hr : runProg p { s with batchDepth := s.batchDepth + 1 } with ⟨r, s2⟩
    have hp := ih { s with batchDepth := s.batchDepth + 1 } ho
    rw [hr] at hp
    dsimp only
    by_cases hz : s2.batchDepth - 1 = 0
    · rw [if_pos hz]
      have ho2 : EffOff ({ s2 with batchDepth := s2.batchDepth - 1, pending := [] } : State) i := by
        refine effOff_of_statusEq ?_ ho
        exact hp
      rcases hdr : drain s2.pending { s2 with batchDepth := s2.batchDepth - 1, pending := [] }
        with ⟨rd, s4⟩
      have hd := effStatusAt_drain s2.pending
        { s2 with batchDepth := s2.batchDepth - 1, pending := [] } i ho2
      rw [hdr] at hd
      cases rd with
      | ok v =>
        dsimp only
        exact hd.trans hp
      | error er =>
        dsimp only
        exact hd.trans hp
    · rw [if_neg hz]
      exact hp

end Kra

namespace Kra

/-! ## Concrete scenarios from the spec -/

/-- `s = createSignal(0); d = createComputed(() => s()*2);
createEffect(() => log.push(d()))` — signal 0, computed 0, effect 0. -/
def c1Setup : State :=
  let s0 := (createSignal (.int 0) State.empty).2
  let s1 := (createComputed (.mul (.readSig 0) (.lit (.int 2))) s0).2
  ((makeEffect (.push (.readComp 0)) s1).2).2

/-- ... then `s(3); s(5)`. -/
def c1AfterWrites : State :=
  (runProg (.seq (.writeSig 0 (.int 3)) (.writeSig 0 (.int 5))) c1Setup).2

/-- ... then `dispose()`. -/
def c1Disposed : State := disposeEffect 0 c1AfterWrites

/-- A sequence of plain writes to signal `i`. -/
def writesTo (i : Nat) : List Value → Prog
  | [] => .skip
  | v :: vs => .seq (.writeSig i v) (writesTo i vs)

/-- The diamond: `a = signal 1; b = computed (a()*2); c = computed (a()*3);
effect reads b then c` — signal 0, computeds 0 and 1, effect 0. -/
def c3Init : State :=
  let s0 := (createSignal (.int 1) State.empty).2
  let s1 := (createComputed (.mul (.readSig 0) (.lit (.int 2))) s0).2
  let s2 := (createComputed (.mul (.readSig 0) (.lit (.int 3))) s1).2
  ((makeEffect (.seq (.readComp 0) (.readComp 1)) s2).2).2

/-- ... a bare write `a(5)`. -/
def c3Unbatched : State := (runProg (.writeSig 0 (.int 5)) c3Init).2

/-- ... the same write wrapped in `batch`. -/
def c3Batched : State := (runProg (.batch (.writeSig 0 (.int 5))) c3Init).2

/-- The instrumented body-invocation count of effect `i`. -/
def effRunCount (s : State) (i : Nat) : Option Nat := (s.effs[i]?).map (·.runCount)

/-- `toggle = signal 1; a = signal 10; b = signal 20;
effect reads toggle() ? a() : b()` — signals 0, 1, 2, effect 0. -/
def c6Init : State :=
  let s0 := (createSignal (.int 1) State.empty).2
  let s1 := (createSignal (.int 10) s0).2
  let s2 := (createSignal (.int 20) s1).2
  ((makeEffect (.ite (.readSig 0) (.readSig 1) (.readSig 2)) s2).2).2

/-- ... after `toggle(0)` flips the branch. -/
def c6Flip : State := (runProg (.writeSig 0 (.int 0)) c6Init).2

/-- Two signals and an effect reading both (for the batch scenarios). -/
def c2S : State :=
  let s0 := (createSignal (.int 1) State.empty).2
  let s1 := (createSignal (.int 2) s0).2
  ((makeEffect (.seq (.readSig 0) (.readSig 1)) s1).2).2

/-- A signal and a computed over it, with the computed already read once
(clean cache holds `int 2`). -/
def c10S : State :=
  let s0 := (createSignal (.int 1) State.empty).2
  let s1 := (createComputed (.mul (.readSig 0) (.lit (.int 2))) s0).2
  (compRead 0 s1).2

/-! ## Claim C1 -/

/-- Writes to any signal in an all-inactive state never touch the log. -/
theorem writesTo_log (i : Nat) (vs : List Value) (s : State) (h : allInactive s) :
    (runProg (writesTo i vs) s).2.log = s.log ∧
      allInactive (runProg (writesTo i vs) s).2 := by
  induction vs generalizing s with
  | nil => exact ⟨rfl, h⟩
  | cons v vs ih =>
    show (runProg (.seq (.writeSig i v) (writesTo i vs)) s).2.log = _ ∧ _
    simp only [runProg]
    rcases hw : sigWrite i v s with ⟨r, s1⟩
    have hs := sigWrite_allInactive i v s h
    rw [hw] at hs
    have hr : r = .ok () := hs.1
    subst hr
    dsimp only
    have h1 : allInactive s1 := allInactive_of_effs_eq hs.2.1 h
    have hrec := ih s1 h1
    exact ⟨hrec.1.trans hs.2.2, hrec.2⟩

/-- C1: for `s = createSignal(0); d = createComputed(() => s()*2); log = [];
createEffect(() => log.push(d()))`, the writes `s(3); s(5)` leave
`log = [0, 6, 10]`; after the effect's `dispose()`, any further sequence of
writes to `s` leaves the log unchanged. -/
theorem claim1_end_to_end :
    c1AfterWrites.log = [Value.int 0, Value.int 6, Value.int 10] ∧
    ∀ vs : List Value, (runProg (writesTo 0 vs) c1Disposed).2.log = c1Disposed.log := by
  refine ⟨rfl, fun vs => ?_⟩
  refine (writesTo_log 0 vs c1Disposed ?_).1
  unfold allInactive
  decide

/-! ## Claim C3 (corrected) -/

/-- C3 counterexample: in the diamond, the batched write `batch(() => a(5))`
re-runs the effect twice (runCount 1 → 3), not exactly once as claimed: the
pending set holds the two computed trackers, and each drained notification
cascades to the effect at batch depth zero. -/
theorem claim3_counterexample :
    effRunCount c3Init 0 = some 1 ∧ effRunCount c3Batched 0 = some 3 :=
  ⟨rfl, rfl⟩

/-- C3 (amended): a single write to `a` outside any batch re-runs the effect
once per computed path (twice), and the same write wrapped in `batch(...)`
also re-runs it twice — batching deduplicates only the pending computed
trackers, each of which is triggered once here. -/
theorem claim3_diamond :
    effRunCount c3Init 0 = some 1 ∧
    effRunCount c3Unbatched 0 = some 3 ∧
    effRunCount c3Batched 0 = some 3 :=
  ⟨rfl, rfl, rfl⟩

/-! ## Claim C7 (code bug) -/

/-- C7: the claim says a missing key (or no owner at all) makes `want` return
a non-function fallback literally and never throw.  The code instead always
evaluates `fallback()` (kra.js lines 158 and 171), which raises a `TypeError`
for a non-function fallback; only a resolver fallback works.  This
contradicts the function's own JSDoc ("找不到则返回 fallback", i.e. the
fallback value is returned when the key is not found, with fallback optional). -/
theorem claim7_want_fallback :
    want [] none "theme" (.int 42) = .error () ∧
    want [] none "theme" (.fnv (.int 42)) = .ok (.int 42) ∧
    want [{ provided := [], parent := none }] (some 0) "theme" (.int 42) = .error () ∧
    want [{ provided := [], parent := none }] (some 0) "theme" (.fnv (.int 42)) =
      .ok (.int 42) :=
  ⟨rfl, rfl, rfl, rfl⟩

/-! ## Claim C10 -/

/-- A write inside a batch leaves every computed cell untouched. -/
theorem sigWrite_batched_comps (i : Nat) (v : Value) (s : State) (h : 0 < s.batchDepth) :
    (sigWrite i v s).2.comps = s.comps := by
  unfold sigWrite
  cases hs : s.sigs[i]? with
  | none => rfl
  | some sg =>
    dsimp only
    by_cases he : objectIs sg.value (resolveNext sg.value v) = true
    · rw [if_pos he]
    · rw [if_neg he]
      rw [triggerTop_batched _ _ (show 0 < (modSig i (fun c => { c with value := resolveNext sg.value v }) s).batchDepth from h)]
      rfl

/-- C10: with a batch active, writing a signal only defers notification, so a
clean computed stays clean with its cached pre-write value, and reading it
before the batch exits returns that stale cache. -/
theorem claim10_stale_read_in_batch (s : State) (i c : Nat) (v : Value) (cc : ComputedCell)
    (hdepth : 0 < s.batchDepth) (hc : s.comps[c]? = some cc) (hclean : cc.dirty = false) :
    (sigWrite i v s).2.comps = s.comps ∧
    (compRead c (sigWrite i v s).2).1 = cc.cachedValue := by
  have hcomps := sigWrite_batched_comps i v s hdepth
  refine ⟨hcomps, ?_⟩
  have hc' : (sigWrite i v s).2.comps[c]? = some cc := by
    rw [hcomps]
    exact hc
  rw [compRead_clean c (sigWrite i v s).2 cc hc' hclean]

/-- Witness for C10 at a concrete batched state. -/
theorem claim10_witness :
    (compRead 0 (sigWrite 0 (.int 7) { c10S with batchDepth := 1 }).2).1 = Value.int 2 :=
  (claim10_stale_read_in_batch { c10S with batchDepth := 1 } 0 0 (.int 7)
    { body := .mul (.readSig 0) (.lit (.int 2)), cachedValue := .int 2, dirty := false,
      subs := [], deps := [.sig 0], evalCount := 1 }
    (by decide) (by decide) (by decide)).2

end Kra

namespace Kra

/-! ## Claim C2 -/

/-- C2: for `batch(fn)` started outside a batch with nothing pending:
(A) while `fn` runs, no `_notify` fires, and the pending set is exactly the
deduplicated set of trackers triggered during `fn` — each appears once no
matter how many writes triggered it; (B) on exit the outermost batch
snapshots and clears the pending set and the drain loop invokes `_notify`
once per snapshot entry; (C) `batch` returns `fn`'s result when the drain
does not throw; (D) an inner nested `batch` call only adjusts the depth
counter and drains nothing. -/
theorem claim2_batch (p : Prog) (s : State) (h0 : s.batchDepth = 0) (hp : s.pending = []) :
    (runProg p { s with batchDepth := 1 }).2.notifyLog = s.notifyLog ∧
    (runProg p { s with batchDepth := 1 }).2.pending.Nodup ∧
    (∃ newT, (runProg p { s with batchDepth := 1 }).2.triggerLog = s.triggerLog ++ newT ∧
       ∀ t : Tracker, t ∈ (runProg p { s with batchDepth := 1 }).2.pending ↔ t ∈ newT) ∧
    runProg (.batch p) s =
      (match drain (runProg p { s with batchDepth := 1 }).2.pending
          { (runProg p { s with batchDepth := 1 }).2 with batchDepth := 0, pending := [] } with
       | (.ok _, s4) => ((runProg p { s with batchDepth := 1 }).1, s4)
       | (.error er, s4) => (.error er, s4)) ∧
    (∀ s4, drain (runProg p { s with batchDepth := 1 }).2.pending
          { (runProg p { s with batchDepth := 1 }).2 with batchDepth := 0, pending := [] } =
          (.ok (), s4) →
       runProg (.batch p) s = ((runProg p { s with batchDepth := 1 }).1, s4)) ∧
    (∀ s', 1 ≤ s'.batchDepth →
       runProg (.batch p) s' =
         ((runProg p { s' with batchDepth := s'.batchDepth + 1 }).1,
          { (runProg p { s' with batchDepth := s'.batchDepth + 1 }).2 with
              batchDepth :=
                (runProg p { s' with batchDepth := s'.batchDepth + 1 }).2.batchDepth - 1 }) ∧
       (runProg (.batch p) s').2.notifyLog = s'.notifyLog) := by
  have h1 : 0 < ({ s with batchDepth := 1 } : State).batchDepth := Nat.zero_lt_one
  have hb := runProg_batched p { s with batchDepth := 1 } h1
  obtain ⟨hd, hn, newT, hl, hpd⟩ := hb
  dsimp only at hd hn hl hpd
  have hB : runProg (.batch p) s =
      (match drain (runProg p { s with batchDepth := 1 }).2.pending
          { (runProg p { s with batchDepth := 1 }).2 with batchDepth := 0, pending := [] } with
       | (.ok _, s4) => ((runProg p { s with batchDepth := 1 }).1, s4)
       | (.error er, s4) => (.error er, s4)) := by
    simp only [runProg]
    rw [h0]
    simp only [Nat.zero_add]
    rcases hr : runProg p { s with batchDepth := 1 } with ⟨r, s2⟩
    rw [hr] at hd
    dsimp only at hd
    dsimp only
    rw [hd]
    rfl
  refine ⟨hn, ?_, ⟨newT, hl, ?_⟩, hB, ?_, ?_⟩
  · rw [hpd, hp]
    exact nodup_accumUnique newT [] List.nodup_nil
  · intro t
    rw [hpd, hp, mem_accumUnique]
    simp
  · intro s4 hdr
    rw [hB, hdr]
  · intro s' h'
    refine ⟨runProg_batch_inner p s' h', ?_⟩
    exact (runProg_batched (.batch p) s' (by omega)).2.1

/-- Witness for C2: two writes to two signals inside one batch; the pending
set after the body is duplicate-free and the batch returns the body's
result. -/
theorem claim2_witness :
    (runProg (.seq (.writeSig 0 (.int 5)) (.writeSig 1 (.int 6)))
      { c2S with batchDepth := 1 }).2.pending.Nodup :=
  (claim2_batch (.seq (.writeSig 0 (.int 5)) (.writeSig 1 (.int 6))) c2S rfl rfl).2.1

end Kra

namespace Kra

/-! ## Claim C5 -/

/-- C5: a write whose resolved value is `Object.is`-equal to the current
value (NaN counting as equal to NaN) is a complete no-op — no mutation, no
notification; a non-equal write stores the value and hands a snapshot of the
current subscribers to the trigger loop, each subscriber appearing in the
trigger log (when no notification threw). -/
theorem claim5_write_equality (s : State) (i : Nat) (sg : SignalCell) (v : Value)
    (hs : s.sigs[i]? = some sg) (hv : v.isFunction = false) :
    objectIs .nan .nan = true ∧
    (objectIs sg.value v = true → sigWrite i v s = (.ok (), s)) ∧
    (objectIs sg.value v = false →
       sigWrite i v s = triggerTop sg.subs (modSig i (fun c => { c with value := v }) s) ∧
       ((sigWrite i v s).2.sigs[i]?).map (·.value) = some v ∧
       ∃ ext, (sigWrite i v s).2.triggerLog = s.triggerLog ++ ext ∧
         ((sigWrite i v s).1 = .ok () → ∀ t ∈ sg.subs, t ∈ ext)) := by
  refine ⟨rfl, fun he => sigWrite_equal i s sg v hs hv he, fun he => ?_⟩
  have heq := sigWrite_changed i s sg v hs hv he
  refine ⟨heq, ?_, ?_⟩
  · rw [heq]
    have h1 := sigValues_triggerTop sg.subs (modSig i (fun c => { c with value := v }) s)
    have h2 := sigValueAt_of_sigValues h1 i
    rw [h2]
    show ((modIdx (fun c => { c with value := v }) i s.sigs)[i]?).map (·.value) = some v
    rw [getElem?_modIdx_self, hs]
    rfl
  · rw [heq]
    obtain ⟨ext, hext, hmem⟩ :=
      triggerTop_triggerLog sg.subs (modSig i (fun c => { c with value := v }) s)
    refine ⟨ext, ?_, hmem⟩
    rw [hext]
    rfl

/-- Witness for C5: writing the current value back is a no-op on a concrete
state; NaN equals NaN under the write-equality rule. -/
theorem claim5_witness :
    sigWrite 0 (.int 1) c2S = (.ok (), c2S) ∧ objectIs .nan .nan = true := by
  have h := claim5_write_equality c2S 0 { value := .int 1, subs := [.eff 0] } (.int 1)
    (by decide) (by decide)
  exact ⟨h.2.1 (by decide), h.1⟩

/-! ## Claim C4 -/

/-- The dirty-read state used below and in other claims. -/
def c4Dirty : State :=
  let s0 := (createSignal (.int 1) State.empty).2
  (createComputed (.mul (.readSig 0) (.lit (.int 2))) s0).2

/-- C4: a computed's wrapped function is not invoked at construction
(`evalCount` starts 0 with `dirty` true); a read while clean returns the
cache without invoking it; a read while dirty invokes it exactly once
(`evalCount + 1`), caches the result and clears `dirty`, and an immediately
following read invokes nothing further; `notify` on an already-dirty
computed does nothing, and on a clean computed only sets `dirty` and
triggers the computed's own subscriber snapshot, changing no `evalCount`. -/
theorem claim4_computed_laziness (b : CExpr) (s : State) (c : Nat) (cc : ComputedCell)
    (hc : s.comps[c]? = some cc) :
    ((createComputed b s).2.comps[(createComputed b s).1]? =
       some { body := b, cachedValue := .undefV, dirty := true, subs := [], deps := [],
              evalCount := 0 }) ∧
    (cc.dirty = false →
       (compRead c s).1 = cc.cachedValue ∧
       compMetaAt (compRead c s).2 c = some (cc.body, cc.cachedValue, false, cc.evalCount)) ∧
    (cc.dirty = true →
       compMetaAt (compRead c s).2 c =
         some (cc.body, (compRead c s).1, false, cc.evalCount + 1) ∧
       compMetaAt (compRead c (compRead c s).2).2 c =
         some (cc.body, (compRead c s).1, false, cc.evalCount + 1)) ∧
    (cc.dirty = true → compNotify c s = (.ok (), pushNotify (.comp c) s)) ∧
    (cc.dirty = false →
       compNotify c s = triggerLeaf cc.subs (compMarkDirty c (pushNotify (.comp c) s)) ∧
       ∀ j : Nat, ((compMarkDirty c (pushNotify (.comp c) s)).comps[j]?).map (·.evalCount) =
         (s.comps[j]?).map (·.evalCount)) := by
  refine ⟨?_, ?_, ?_, fun hd => compNotify_dirty c s cc hc hd, fun hd => ?_⟩
  · exact List.getElem?_concat_length s.comps _
  · intro hd
    rw [compRead_clean c s cc hc hd]
    refine ⟨rfl, ?_⟩
    rw [compMetaAt_trackAt]
    unfold compMetaAt
    rw [hc]
    simp [hd]
  · intro hd
    have hmeta : compMetaAt (trackAt (.comp c) s) c =
        some (cc.body, cc.cachedValue, true, cc.evalCount) := by
      rw [compMetaAt_trackAt]
      unfold compMetaAt
      rw [hc]
      simp [hd]
    have hspec := compEnsure_spec c cc.body (trackAt (.comp c) s)
      cc.cachedValue true cc.evalCount hmeta
    rw [compRead_dirty c s cc hc hd]
    refine ⟨hspec, ?_⟩
    obtain ⟨cl, hcl, hm⟩ := compMetaAt_eq_some hspec
    simp only [Prod.mk.injEq] at hm
    obtain ⟨hb, hcv, hdd, hn⟩ := hm
    rw [compRead_clean c (compEnsure c cc.body (trackAt (.comp c) s)).2 cl hcl hdd]
    rw [compMetaAt_trackAt]
    unfold compMetaAt
    rw [hcl]
    simp [hb, hcv, hdd, hn]
  · refine ⟨compNotify_clean c s cc hc hd, fun j => ?_⟩
    rw [evalCountAt_compMarkDirty]
    rfl

/-- Witness for C4: a first read of a freshly created (dirty) computed runs
its body once; a read of an already-clean computed returns the cache. -/
theorem claim4_witness :
    compMetaAt (compRead 0 c4Dirty).2 0 =
      some (CExpr.mul (.readSig 0) (.lit (.int 2)), Value.int 2, false, 1) ∧
    (compRead 0 c10S).1 = Value.int 2 := by
  have h1 := (claim4_computed_laziness (.lit .undefV) c4Dirty 0
    { body := .mul (.readSig 0) (.lit (.int 2)), cachedValue := .undefV, dirty := true,
      subs := [], deps := [], evalCount := 0 } (by decide)).2.2.1 rfl
  have h2 := (claim4_computed_laziness (.lit .undefV) c10S 0
    { body := .mul (.readSig 0) (.lit (.int 2)), cachedValue := .int 2, dirty := false,
      subs := [], deps := [.sig 0], evalCount := 1 } (by decide)).2.1 rfl
  exact ⟨h1.1, h2.1⟩

end Kra

namespace Kra

/-! ## Claim C6 -/

/-- Writing a signal with an empty subscriber set runs no effect. -/
theorem sigWrite_no_subs (i : Nat) (v : Value) (s : State) (sg : SignalCell)
    (hs : s.sigs[i]? = some sg) (hsub : sg.subs = []) :
    (sigWrite i v s).2.effs = s.effs := by
  unfold sigWrite
  rw [hs]
  dsimp only
  by_cases he : objectIs sg.value (resolveNext sg.value v) = true
  · rw [if_pos he]
  · rw [if_neg he]
    rw [hsub]
    rfl

/-- C6: for the effect `toggle() ? a() : b()` (toggle = signal 0 holding 1,
a = signal 1 holding 10, b = signal 2 holding 20), after each evaluation the
dependency set mirrors exactly the signals read: initially {toggle, a}, with
b subscriber-free, so any write to b never re-runs the effect while any
value-changing write to a always does; after `toggle(0)` flips the branch,
the dependency set is {toggle, b}, a is subscriber-free, writes to a never
re-run the effect and value-changing writes to b always do. -/
theorem claim6_conditional_deps :
    (c6Init.effs[0]?).map (·.deps) = some [SetRef.sig 0, SetRef.sig 1] ∧
    (c6Init.sigs[2]?).map (·.subs) = some [] ∧
    (c6Init.sigs[1]?).map (·.subs) = some [Tracker.eff 0] ∧
    (∀ v : Value, effRunCount (runProg (.writeSig 2 v) c6Init).2 0 = some 1) ∧
    (∀ v : Value, v.isFunction = false → objectIs (.int 10) v = false →
       effRunCount (runProg (.writeSig 1 v) c6Init).2 0 = some 2) ∧
    (c6Flip.effs[0]?).map (·.deps) = some [SetRef.sig 0, SetRef.sig 2] ∧
    (c6Flip.sigs[1]?).map (·.subs) = some [] ∧
    (∀ v : Value, effRunCount (runProg (.writeSig 1 v) c6Flip).2 0 = some 2) ∧
    (∀ v : Value, v.isFunction = false → objectIs (.int 20) v = false →
       effRunCount (runProg (.writeSig 2 v) c6Flip).2 0 = some 3) := by
  refine ⟨rfl, rfl, rfl, ?_, ?_, rfl, rfl, ?_, ?_⟩
  · intro v
    simp only [runProg]
    rcases hw : sigWrite 2 v c6Init with ⟨r, s1⟩
    have hf := sigWrite_no_subs 2 v c6Init { value := .int 20, subs := [] } rfl rfl
    rw [hw] at hf
    dsimp only
    unfold effRunCount
    rw [hf]
    rfl
  · intro v hv hne
    simp only [runProg]
    rw [sigWrite_changed 1 c6Init { value := .int 10, subs := [Tracker.eff 0] } v rfl hv hne]
    rfl
  · intro v
    simp only [runProg]
    rcases hw : sigWrite 1 v c6Flip with ⟨r, s1⟩
    have hf := sigWrite_no_subs 1 v c6Flip { value := .int 10, subs := [] } rfl rfl
    rw [hw] at hf
    dsimp only
    unfold effRunCount
    rw [hf]
    rfl
  · intro v hv hne
    simp only [runProg]
    rw [sigWrite_changed 2 c6Flip { value := .int 20, subs := [Tracker.eff 0] } v rfl hv hne]
    rfl

/-- Witness for C6 at concrete written values. -/
theorem claim6_witness :
    effRunCount (runProg (.writeSig 1 (.int 11)) c6Init).2 0 = some 2 ∧
    effRunCount (runProg (.writeSig 2 (.int 99)) c6Init).2 0 = some 1 := by
  have h := claim6_conditional_deps
  exact ⟨h.2.2.2.2.1 (.int 11) rfl (by decide), h.2.2.2.1 (.int 99)⟩

/-! ## Claim C8 -/

/-- Cleaning up an effect tracker only empties its `_deps` (subscriber sets
live on signals/computeds). -/
theorem cleanupTracker_eff_cell (i : Nat) (s : State) :
    (cleanupTracker (.eff i) s).effs[i]? =
      (s.effs[i]?).map (fun e => { e with deps := [] }) := by
  unfold cleanupTracker
  have hf : ∀ (refs : List SetRef) (s' : State),
      (refs.foldl (fun acc ref => removeFromSubs ref (.eff i) acc) s').effs = s'.effs := by
    intro refs
    induction refs with
    | nil => intro s'; rfl
    | cons r rs ih =>
      intro s'
      rw [List.foldl_cons, ih]
      cases r <;> rfl
  show ((modIdx (fun e => { e with deps := [] }) i
    ((depsOfTracker (.eff i) s).foldl (fun acc ref => removeFromSubs ref (.eff i) acc) s).effs)[i]?) = _
  rw [getElem?_modIdx_self, hf]

/-- The effect cell after a first `dispose()`: inactive, edge-free, with the
cleanup callback invoked once when (and only when) one was stored. -/
theorem disposeEffect_cell (i : Nat) (s : State) (ec : EffectCell)
    (hc : s.effs[i]? = some ec) (ha : ec.active = true) :
    (disposeEffect i s).effs[i]? =
      some { ec with active := false, deps := [],
                     cleanupCount := ec.cleanupCount +
                       (if ec.cleanupFn.isFunction then 1 else 0) } := by
  unfold disposeEffect
  rw [hc]
  dsimp only
  rw [if_pos ha]
  rw [cleanupTracker_eff_cell]
  have h1 : (modEff i (fun e => { e with active := false }) s).effs[i]? =
      some { ec with active := false } := by
    show ((modIdx (fun e => { e with active := false }) i s.effs)[i]?) = _
    rw [getElem?_modIdx_self, hc]
    rfl
  unfold invokeCleanup
  rw [h1]
  dsimp only
  by_cases hfn : ec.cleanupFn.isFunction = true
  · rw [if_pos hfn]
    have h2 : (modEff i (fun e => { e with cleanupCount := e.cleanupCount + 1 })
        (modEff i (fun e => { e with active := false }) s)).effs[i]? =
        some { ec with active := false, cleanupCount := ec.cleanupCount + 1 } := by
      show ((modIdx (fun e => { e with cleanupCount := e.cleanupCount + 1 }) i
        (modEff i (fun e => { e with active := false }) s).effs)[i]?) = _
      rw [getElem?_modIdx_self, h1]
      rfl
    rw [h2]
    simp [hfn]
  · rw [if_neg hfn]
    rw [h1]
    simp only [Bool.not_eq_true] at hfn
    simp [hfn]

/-- Disposing an already-inactive effect is a no-op. -/
theorem disposeEffect_inactive (i : Nat) (s : State) (ho : EffOff s i) :
    disposeEffect i s = s := by
  unfold disposeEffect
  cases hc : s.effs[i]? with
  | none => rfl
  | some ec =>
    dsimp only
    rw [if_neg (by simp [ho ec hc])]

/-- Notifying an inactive effect does nothing (the `active` guard). -/
theorem effNotify_off (i : Nat) (s : State) (ho : EffOff s i) :
    effNotify i s = (.ok (), pushNotify (.eff i) s) := by
  unfold effNotify
  cases hc : (pushNotify (.eff i) s).effs[i]? with
  | none => rfl
  | some ec =>
    dsimp only
    rw [if_neg (by simp [ho ec hc])]

/-- C8: `dispose()` flips `active` off, invokes the stored cleanup exactly
once in total (also across a second `dispose()`, which is a strict no-op),
and afterwards the effect's body can never run again: `notify` is guarded,
and no top-level program changes the disposed effect's (active, runCount)
status. -/
theorem claim8_dispose (s : State) (i : Nat) (ec : EffectCell)
    (hc : s.effs[i]? = some ec) (ha : ec.active = true) :
    ((disposeEffect i s).effs[i]?).map (·.cleanupCount) =
      some (ec.cleanupCount + (if ec.cleanupFn.isFunction then 1 else 0)) ∧
    ((disposeEffect i s).effs[i]?).map (·.active) = some false ∧
    disposeEffect i (disposeEffect i s) = disposeEffect i s ∧
    effNotify i (disposeEffect i s) = (.ok (), pushNotify (.eff i) (disposeEffect i s)) ∧
    (∀ p : Prog, effStatusAt (runProg p (disposeEffect i s)).2 i =
       effStatusAt (disposeEffect i s) i) := by
  have hcell := disposeEffect_cell i s ec hc ha
  have hoff : EffOff (disposeEffect i s) i := by
    intro ec' hec'
    rw [hcell] at hec'
    injection hec' with h
    rw [← h]
  refine ⟨?_, ?_, disposeEffect_inactive i _ hoff, effNotify_off i _ hoff,
    fun p => effStatusAt_runProg p _ i hoff⟩
  · rw [hcell]
    rfl
  · rw [hcell]
    rfl

/-- An effect whose body returns a function value, so a cleanup is stored. -/
def c8S : State := ((makeEffect (.lit (.fnv .undefV)) State.empty).2).2

/-- Witness for C8: disposing it twice runs the cleanup once in total. -/
theorem claim8_witness :
    ((disposeEffect 0 c8S).effs[0]?).map (·.cleanupCount) = some 1 ∧
    disposeEffect 0 (disposeEffect 0 c8S) = disposeEffect 0 c8S := by
  have h := claim8_dispose c8S 0
    { body := .lit (.fnv .undefV), cleanupFn := .fnv .undefV, active := true, deps := [],
      runCount := 1, cleanupCount := 0 } (by decide) rfl
  exact ⟨h.1, h.2.2.1⟩

/-! ## Claim C9 -/

/-- C9: `untrack(fn)` evaluates `fn` with no active tracker and returns `fn`'s
result; it restores the previously active tracker and the tracker stack with
no condition on how `fn` exits (so also when it throws), as does
`runWithTracker`; and when `fn` performs no computed read, no signal,
computed or effect cell changes at all — in particular no subscription is
registered by any of `fn`'s signal reads. -/
theorem claim9_untrack (e : EExpr) (s : State) :
    (untrack e s).1 = (evalE e (pushTracker none s)).1 ∧
    (untrack e s).2.activeTracker = s.activeTracker ∧
    (untrack e s).2.trackerStack = s.trackerStack ∧
    (∀ t : Tracker, (runWithTracker t e s).2.activeTracker = s.activeTracker ∧
       (runWithTracker t e s).2.trackerStack = s.trackerStack) ∧
    (EExpr.noCompRead e = true →
       (untrack e s).2.sigs = s.sigs ∧ (untrack e s).2.comps = s.comps ∧
       (untrack e s).2.effs = s.effs) := by
  have hctx := ctx_untrack e s
  refine ⟨?_, hctx.1, hctx.2,
    fun t => ⟨(ctx_runWithTracker t e s).1, (ctx_runWithTracker t e s).2⟩, fun hn => ?_⟩
  · unfold untrack
    rcases h : evalE e (pushTracker none s) with ⟨r, s2⟩
    rfl
  · unfold untrack
    rcases h : evalE e (pushTracker none s) with ⟨r, s2⟩
    have hu := untracked_evalE e (pushTracker none s) rfl hn
    rw [h] at hu
    dsimp only
    have hpop : (popTracker s2).sigs = s2.sigs ∧ (popTracker s2).comps = s2.comps ∧
        (popTracker s2).effs = s2.effs := by
      unfold popTracker
      cases s2.trackerStack <;> exact ⟨rfl, rfl, rfl⟩
    exact ⟨hpop.1.trans hu.1, hpop.2.1.trans hu.2.1, hpop.2.2.trans hu.2.2⟩

/-- Witness for C9: a body that reads a signal and then throws — the result
is the exception, the tracker context is restored, and no cell changed. -/
theorem claim9_witness :
    (untrack (.seq (.readSig 0) .throwE) c2S).2.trackerStack = c2S.trackerStack ∧
    (untrack (.seq (.readSig 0) .throwE) c2S).2.sigs = c2S.sigs ∧
    (untrack (.seq (.readSig 0) .throwE) c2S).1 = .error () := by
  have h := claim9_untrack (.seq (.readSig 0) .throwE) c2S
  exact ⟨h.2.2.1, (h.2.2.2.2 rfl).1, rfl⟩

end Kra
